import Mathlib

/-!
Shallow embedding of the Vimshottari dasha engine of the kundaliPwa
repository (source file src/dasha/vimshottari.js).

Times and longitudes are rationals; JavaScript numeric arithmetic on these
quantities is modelled by exact rational arithmetic (milliseconds for
instants and durations, degrees for longitudes).  The two external
collaborators of the dasha module are parameters of the embedding: the
calendar conversion (moment.tz(...).utc().valueOf(), a function from the
three string fields to a millisecond instant) and the contents of
interpretations.json (a two-level keyed table whose JSON data ships next to
the source file; only its shape - lowercase keys to lowercase keys to text -
matters here).
-/

namespace Vimshottari

/-- The fixed nine-lord cycle (constant LORDS of vimshottari.js). -/
def LORDS : List String :=
  ["Ketu", "Venus", "Sun", "Moon", "Mars", "Rahu", "Jupiter", "Saturn", "Mercury"]

/-- The fixed per-lord year weights (constant YEARS of vimshottari.js).
In JavaScript, indexing the weight object with a non-lord key yields
undefined; the claims only ever evaluate YEARS at members of LORDS, and the
catch-all 0 makes the function total. -/
def YEARS (l : String) : ℚ :=
  if l = "Ketu" then 7
  else if l = "Venus" then 20
  else if l = "Sun" then 6
  else if l = "Moon" then 10
  else if l = "Mars" then 7
  else if l = "Rahu" then 18
  else if l = "Jupiter" then 16
  else if l = "Saturn" then 19
  else if l = "Mercury" then 17
  else 0

/-- Milliseconds per day (constant MS_PER_DAY of vimshottari.js). -/
def MS_PER_DAY : ℚ := 86400 * 1000

/-- Milliseconds per 365.2425-day year (constant YEAR_MS of vimshottari.js). -/
def YEAR_MS : ℚ := 31556952 * 1000

/-- Truncation toward zero, the rounding used by the JavaScript % operator. -/
def ratTrunc (q : ℚ) : ℤ := if 0 ≤ q then ⌊q⌋ else ⌈q⌉

/-- The JavaScript remainder x % y (sign follows the dividend). -/
def jsMod (x y : ℚ) : ℚ := x - y * (ratTrunc (x / y) : ℚ)

/-- normalize360 of vimshottari.js: deg % 360, shifted into [0, 360).
(JavaScript may return -0 for an exact negative multiple; -0 < 0 is false
there and -0 equals 0 numerically, matching the rational 0 here.) -/
def normalize360 (deg : ℚ) : ℚ :=
  let x := jsMod deg 360
  if x < 0 then x + 360 else x

/-- Width of one nakshatra in degrees (constant NAK_LEN_DEG = 360 / 27). -/
def NAK_LEN_DEG : ℚ := 360 / 27

/-- Result of nakFromLon: a 27-way index and the fractional elapsed part. -/
structure Nak where
  index : ℤ
  fracElapsed : ℚ

/-- nakFromLon of vimshottari.js. -/
def nakFromLon (lonDeg : ℚ) : Nak :=
  let d := normalize360 lonDeg
  let idx := ⌊d / NAK_LEN_DEG⌋
  ⟨idx, (d - (idx : ℚ) * NAK_LEN_DEG) / NAK_LEN_DEG⟩

/-- rotateFromStart of vimshottari.js.  For a member lord this is
LORDS.slice(i).concat(LORDS.slice(0, i)) at i = LORDS.indexOf(startLord).
For a non-member, JavaScript indexOf returns -1 and slice(-1) /
slice(0, -1) split at index 8; the else branch reproduces that. -/
def rotateFromStart (startLord : String) : List String :=
  if LORDS.contains startLord then
    LORDS.drop (LORDS.indexOf startLord) ++ LORDS.take (LORDS.indexOf startLord)
  else
    LORDS.drop 8 ++ LORDS.take 8

/-- One weighted segment as produced by buildWeightedSegments. -/
structure Seg where
  lord : String
  startMs : ℚ
  endMs : ℚ
  durationMs : ℚ

/-- Sum of the weights over an ordered lord list (the totalYears reduce of
buildWeightedSegments). -/
def sumW (order : List String) (w : String → ℚ) : ℚ := (order.map w).sum

/-- The loop body of buildWeightedSegments: walk the ordered lords with a
running cursor; every segment but the last takes its proportional share,
the last fills up to parentStartMs + parentDurMs. -/
def bwsGo (parentStartMs parentDurMs totalYears : ℚ) (weightsYears : String → ℚ) :
    ℚ → List String → List Seg
  | _, [] => []
  | cursor, lord :: rest =>
    let segDur :=
      if rest.isEmpty then parentStartMs + parentDurMs - cursor
      else parentDurMs * (weightsYears lord / totalYears)
    ⟨lord, cursor, cursor + segDur, segDur⟩ ::
      bwsGo parentStartMs parentDurMs totalYears weightsYears (cursor + segDur) rest

/-- buildWeightedSegments of vimshottari.js. -/
def buildWeightedSegments (parentStartMs parentDurMs : ℚ) (order : List String)
    (weightsYears : String → ℚ) : List Seg :=
  bwsGo parentStartMs parentDurMs (sumW order weightsYears) weightsYears parentStartMs order

/-- The shape of interpretations.json: a map from lowercase major-lord keys
to maps from lowercase sub-lord keys to text.  The JSON contents are data
shipped beside the source; the table is a parameter of the embedding. -/
def InterpTable : Type := String → Option (String → Option String)

/-- interpFor of vimshottari.js.  Both lookups are on lowercased names; a
missing block or entry gives null, and a falsy (empty) text is also mapped
to null by the mdBlock[b] || null step. -/
def interpFor (tbl : InterpTable) (md ad : String) : Option String :=
  let a := md.toLower
  let b := ad.toLower
  match tbl a with
  | none => none
  | some blk =>
    match blk b with
    | none => none
    | some s => if s = "" then none else some s

/-- A pratyantar (SubSub) node of the output tree.  The source serializes
start and end through toISO; instants stay numeric here (toISO is the
injective external formatting of a millisecond value). -/
structure PDNode where
  lord : String
  startMs : ℚ
  endMs : ℚ
  interpretation : Option String

/-- An antar (Sub) node of the output tree. -/
structure ADNode where
  lord : String
  startMs : ℚ
  endMs : ℚ
  interpretation : Option String
  pratyantar : List PDNode

/-- A mahadasha (Major) node of the output tree; years and days are the
two derived duration fields pushMD serializes. -/
structure MDNode where
  lord : String
  startMs : ℚ
  endMs : ℚ
  years : ℚ
  days : ℚ
  antar : List ADNode

/-- The pratyantar map body inside pushMD. -/
def mkPD (tbl : InterpTable) (adLord : String) (pd : Seg) : PDNode :=
  ⟨pd.lord, pd.startMs, pd.endMs, interpFor tbl adLord pd.lord⟩

/-- The antar map body inside pushMD: pratyantar order always starts from
the antar lord, allocated over the antar segment's span. -/
def mkAD (tbl : InterpTable) (mdLord : String) (seg : Seg) : ADNode :=
  let pdOrder := rotateFromStart seg.lord
  let pdSegs := buildWeightedSegments seg.startMs seg.durationMs pdOrder YEARS
  ⟨seg.lord, seg.startMs, seg.endMs, interpFor tbl mdLord seg.lord,
    pdSegs.map (mkPD tbl seg.lord)⟩

/-- pushMD of computeVimshottari: build one Major node with its antar and
pratyantar children; antar order always starts from the Major lord. -/
def mkMD (tbl : InterpTable) (mdLord : String) (mdStart mdEnd : ℚ) : MDNode :=
  let mdDur := mdEnd - mdStart
  let antarOrder := rotateFromStart mdLord
  let antarSegs := buildWeightedSegments mdStart mdDur antarOrder YEARS
  ⟨mdLord, mdStart, mdEnd, YEARS mdLord, mdDur / MS_PER_DAY,
    antarSegs.map (mkAD tbl mdLord)⟩

/-- The input payload of computeVimshottari.  Option String models a
possibly missing field; Option ℚ models the typeof-number check on
moonSiderealDeg; totalYears is none when the caller omits it (JS default
120). -/
structure VimInput where
  birthDate : Option String
  birthTime : Option String
  timeZone : Option String
  moonSiderealDeg : Option ℚ
  totalYears : Option ℚ

/-- JavaScript falsiness of a possibly-missing string field (undefined or
the empty string). -/
def falsyStr : Option String → Bool
  | none => true
  | some s => s = ""

/-- The meta block of the output (birthUTC kept as the millisecond value). -/
structure VimMeta where
  birthUTC : ℚ
  startLord : String

/-- The output of computeVimshottari. -/
structure VimOutput where
  meta : VimMeta
  sequence : List MDNode

/-- The effective totalYears (JS default parameter totalYears = 120). -/
def tyOf (inp : VimInput) : ℚ := inp.totalYears.getD 120

/-- The birth instant in ms: the external calendar conversion applied to the
three string fields. -/
def birthOf (toInstant : String → String → String → ℚ) (inp : VimInput) : ℚ :=
  toInstant (inp.birthDate.getD "") (inp.birthTime.getD "") (inp.timeZone.getD "")

/-- The horizon instant capEnd = birthMs + YEAR_MS * totalYears. -/
def capOf (toInstant : String → String → String → ℚ) (inp : VimInput) : ℚ :=
  birthOf toInstant inp + YEAR_MS * tyOf inp

/-- The moonSiderealDeg value (the validation guarantees it is present). -/
def lonOf (inp : VimInput) : ℚ := inp.moonSiderealDeg.getD 0

/-- The starting lord LORDS[nak.index % 9].  The index is nonnegative
(established below), so the Int remainder agrees with the JS one. -/
def startLordOf (lonDeg : ℚ) : String :=
  LORDS.getD ((nakFromLon lonDeg).index % 9).toNat ""

/-- mdRemainingMs: the unelapsed part of the starting mahadasha,
mdTotalMs - mdTotalMs * fracElapsed. -/
def mdRemainingOf (lonDeg : ℚ) : ℚ :=
  YEAR_MS * YEARS (startLordOf lonDeg) -
    YEAR_MS * YEARS (startLordOf lonDeg) * (nakFromLon lonDeg).fracElapsed

/-- The first mahadasha's end: min(birthMs + mdRemainingMs, capEnd). -/
def mdEndOf (toInstant : String → String → String → ℚ) (inp : VimInput) : ℚ :=
  min (birthOf toInstant inp + mdRemainingOf (lonOf inp)) (capOf toInstant inp)

/-- One inner for-loop of the Major-period generator: walk the given lords,
pushing a full mahadasha while its natural end stays within capEnd, and a
clipped one (followed by break outer, the Bool) as soon as it would pass it.
Returns the built nodes, the updated mdStartMs and whether break outer ran. -/
def mdPass (tbl : InterpTable) : List String → ℚ → ℚ → List MDNode × ℚ × Bool
  | [], mdStart, _ => ([], mdStart, false)
  | lord :: rest, mdStart, capEnd =>
    let durMs := YEAR_MS * YEARS lord
    let mdEnd := mdStart + durMs
    if capEnd < mdEnd then
      ([mkMD tbl lord mdStart capEnd], mdStart, true)
    else
      let r := mdPass tbl rest mdEnd capEnd
      (mkMD tbl lord mdStart mdEnd :: r.1, r.2.1, r.2.2)

/-- The outer: for(;;) loop of computeVimshottari.  Each iteration runs the
partial pass over cycleOrder[1..] and then the full pass over cycleOrder,
stopping as soon as a pass clipped (break outer).  The JavaScript loop is
unbounded; here it runs on fuel, an upper bound on the number of outer
iterations (each non-stopping iteration advances mdStartMs by at least one
full 120-year cycle, so the generous bound below is never reached). -/
def mdOuter (tbl : InterpTable) (cycle : List String) :
    ℕ → ℚ → ℚ → List MDNode
  | 0, _, _ => []
  | fuel + 1, mdStart, capEnd =>
    let rA := mdPass tbl (cycle.drop 1) mdStart capEnd
    if rA.2.2 then rA.1
    else
      let rB := mdPass tbl cycle rA.2.1 capEnd
      if rB.2.2 then rA.1 ++ rB.1
      else rA.1 ++ rB.1 ++ mdOuter tbl cycle fuel rB.2.1 capEnd

/-- Fuel for mdOuter: enough outer iterations for the span remaining after
the anchor mahadasha (each iteration covers at least 120 years). -/
def mdFuel (spanMs : ℚ) : ℕ := (⌈spanMs / YEAR_MS⌉).toNat + 2

/-- computeVimshottari of vimshottari.js.  toInstant stands for the
moment-timezone conversion of (birthDate, birthTime, timeZone) to a UTC
millisecond value; tbl stands for the interpretations.json table. -/
def computeVimshottari (toInstant : String → String → String → ℚ)
    (tbl : InterpTable) (inp : VimInput) : Except String VimOutput :=
  if falsyStr inp.birthDate || falsyStr inp.birthTime || falsyStr inp.timeZone ||
      inp.moonSiderealDeg.isNone then
    .error "Invalid payload for computeVimshottari"
  else
    let startLord := startLordOf (lonOf inp)
    let birthMs := birthOf toInstant inp
    let capEnd := capOf toInstant inp
    let mdEndMs := mdEndOf toInstant inp
    let first := mkMD tbl startLord birthMs mdEndMs
    if capEnd ≤ mdEndMs then
      .ok ⟨⟨birthMs, startLord⟩, [first]⟩
    else
      let cycleOrder := rotateFromStart startLord
      .ok ⟨⟨birthMs, startLord⟩,
        first :: mdOuter tbl cycleOrder (mdFuel (capEnd - mdEndMs)) mdEndMs capEnd⟩

/-! Measurement definitions for the spec's tiling invariant, and concrete
example inputs used by witnesses and counterexamples. -/

/-- tilesFromB a l b: the pairs (start, end) in l are laid out back-to-back
from a to b (each start equals the running cursor, which ends at b). -/
def tilesFromB : ℚ → List (ℚ × ℚ) → ℚ → Bool
  | a, [], b => decide (a = b)
  | a, p :: t, b => decide (p.1 = a) && tilesFromB p.2 t b

/-- The spec's per-node tiling invariant over the child intervals of a
parent [ps, pe]: contiguous back-to-back layout from ps to pe, child
durations summing to the parent duration, starts sorted, and no
reversed child (which, with contiguity, gives non-overlap of the
half-open intervals). -/
def levelOK (ps pe : ℚ) (l : List (ℚ × ℚ)) : Prop :=
  tilesFromB ps l pe = true ∧
  (l.map fun p => p.2 - p.1).sum = pe - ps ∧
  (l.map Prod.fst).Pairwise (· ≤ ·) ∧
  ∀ p ∈ l, p.1 ≤ p.2

/-- The (start, end) intervals of a segment list. -/
def segIntervals (l : List Seg) : List (ℚ × ℚ) := l.map fun sg => (sg.startMs, sg.endMs)

/-- The (start, end) intervals of a Major node's antar children. -/
def intervalsOfMD (md : MDNode) : List (ℚ × ℚ) := md.antar.map fun a => (a.startMs, a.endMs)

/-- The (start, end) intervals of a Sub node's pratyantar children. -/
def intervalsOfAD (ad : ADNode) : List (ℚ × ℚ) :=
  ad.pratyantar.map fun p => (p.startMs, p.endMs)

/-- The (start, end) intervals of the Major sequence itself. -/
def intervalsOfSeq (l : List MDNode) : List (ℚ × ℚ) := l.map fun m => (m.startMs, m.endMs)

/-- A calendar conversion placing the birth instant at 0 ms. -/
def tz0 : String → String → String → ℚ := fun _ _ _ => 0

/-- An empty interpretation table. -/
def tblE : InterpTable := fun _ => none

/-- A one-entry interpretation table with the lowercase key shape of
interpretations.json. -/
def tblSun : InterpTable := fun a =>
  if a = "sun" then some (fun b => if b = "moon" then some "Sun-Moon period." else none)
  else none

/-- Valid payload, longitude 0 (lord Ketu, fraction 0), horizon 1 year. -/
def inpSmall : VimInput := ⟨some "2000-01-01", some "12:00", some "UTC", some 0, some 1⟩

/-- Valid payload, longitude 0, horizon 7 years: the anchor mahadasha ends
exactly at the horizon. -/
def inpC4 : VimInput := ⟨some "2000-01-01", some "12:00", some "UTC", some 0, some 7⟩

/-- Valid payload, longitude 0, horizon 27 years: the Venus mahadasha ends
exactly at the horizon, so the next (Sun) one is clipped to zero length. -/
def inp27 : VimInput := ⟨some "2000-01-01", some "12:00", some "UTC", some 0, some 27⟩

/-- Payload with an out-of-range longitude (400) and totalYears 0, both of
which the spec calls invalid. -/
def inpTy0 : VimInput := ⟨some "2000-01-01", some "12:00", some "UTC", some 400, some 0⟩

/-- Valid payload with longitude 20/3 (half-way through the first
nakshatra, fracElapsed = 1/2) and horizon 2 years: the anchor mahadasha is
clipped. -/
def inpHalf : VimInput := ⟨some "2000-01-01", some "12:00", some "UTC", some (20 / 3), some 2⟩

/-- Default output value used with Option.getD. -/
def outDefault : VimOutput := ⟨⟨0, ""⟩, []⟩

/-- Default Major node used with List.getD. -/
def mdDefault : MDNode := ⟨"", 0, 0, 0, 0, []⟩

/-- Default segment used with List.getD. -/
def segDefault : Seg := ⟨"", 0, 0, 0⟩

/-- The schedule built from inpSmall over the empty table. -/
def outSmall : VimOutput := (computeVimshottari tz0 tblE inpSmall).toOption.getD outDefault

/-- The schedule built from inpSmall over the one-entry table. -/
def outSun : VimOutput := (computeVimshottari tz0 tblSun inpSmall).toOption.getD outDefault

/-- The schedule built from inpC4. -/
def outC4 : VimOutput := (computeVimshottari tz0 tblE inpC4).toOption.getD outDefault

/-- The third Major node of the inp27 schedule (the zero-length Sun one). -/
def md27 : MDNode :=
  ((computeVimshottari tz0 tblE inp27).toOption.getD outDefault).sequence.getD 2 mdDefault

/-- The single (clipped anchor) Major node of the inpHalf schedule. -/
def mdHalf : MDNode :=
  ((computeVimshottari tz0 tblE inpHalf).toOption.getD outDefault).sequence.getD 0 mdDefault

/-- Number of Major nodes the inpTy0 payload produces. -/
def ty0SeqLen : ℕ :=
  ((computeVimshottari tz0 tblE inpTy0).toOption.getD outDefault).sequence.length

/-! Basic facts about the constants. -/

lemma YEAR_MS_pos : (0 : ℚ) < YEAR_MS := by norm_num [YEAR_MS]

lemma MS_PER_DAY_pos : (0 : ℚ) < MS_PER_DAY := by norm_num [MS_PER_DAY]

lemma years_nonneg (l : String) : 0 ≤ YEARS l := by
  unfold YEARS
  repeat' split
  all_goals norm_num

lemma years_pos_of_mem {l : String} (h : l ∈ LORDS) : 0 < YEARS l := by
  fin_cases h <;> decide

lemma sumW_nil (w : String → ℚ) : sumW [] w = 0 := rfl

lemma sumW_cons (a : String) (order : List String) (w : String → ℚ) :
    sumW (a :: order) w = w a + sumW order w := by
  simp [sumW]

lemma sumW_nonneg {order : List String} {w : String → ℚ}
    (h : ∀ l ∈ order, 0 ≤ w l) : 0 ≤ sumW order w := by
  refine List.sum_nonneg ?_
  intro x hx
  rcases List.mem_map.mp hx with ⟨l, hl, rfl⟩
  exact h l hl

lemma sumW_pos {order : List String} {w : String → ℚ}
    (hne : order ≠ []) (h : ∀ l ∈ order, 0 < w l) : 0 < sumW order w := by
  cases order with
  | nil => exact absurd rfl hne
  | cons a t =>
    rw [sumW_cons]
    have h1 : 0 < w a := h a (List.mem_cons_self a t)
    have h2 : 0 ≤ sumW t w := sumW_nonneg fun l hl => (h l (List.mem_cons_of_mem _ hl)).le
    linarith

lemma sumW_LORDS : sumW LORDS YEARS = 120 := by
  simp [sumW, LORDS, YEARS]
  norm_num

/-! The longitude helpers: normalize360 lands in [0, 360) and the
nakshatra index and fraction are in range. -/

lemma normalize360_bounds (d : ℚ) : 0 ≤ normalize360 d ∧ normalize360 d < 360 := by
  have h360 : (0 : ℚ) < 360 := by norm_num
  rcases le_or_lt 0 d with hd | hd
  · have hq : 0 ≤ d / 360 := div_nonneg hd h360.le
    have htr : ratTrunc (d / 360) = ⌊d / 360⌋ := if_pos hq
    have hm : jsMod d 360 = 360 * Int.fract (d / 360) := by
      rw [jsMod, htr, Int.fract]
      field_simp
    have h1 : 0 ≤ jsMod d 360 := by
      rw [hm]; exact mul_nonneg h360.le (Int.fract_nonneg _)
    have h2 : jsMod d 360 < 360 := by
      rw [hm]
      have := Int.fract_lt_one (d / 360)
      nlinarith
    rw [normalize360, if_neg (not_lt.mpr h1)]
    exact ⟨h1, h2⟩
  · have hq : d / 360 < 0 := div_neg_of_neg_of_pos hd h360
    have htr : ratTrunc (d / 360) = ⌈d / 360⌉ := if_neg (not_le.mpr hq)
    have hm : jsMod d 360 = -(360 * Int.fract (-(d / 360))) := by
      rw [jsMod, htr]
      have hceil : (⌈d / 360⌉ : ℚ) = -(⌊-(d / 360)⌋ : ℚ) := by
        rw [Int.floor_neg]; push_cast; ring
      rw [hceil, Int.fract]
      field_simp
      ring
    have hf0 := Int.fract_nonneg (-(d / 360))
    have hf1 := Int.fract_lt_one (-(d / 360))
    have h1 : -360 < jsMod d 360 := by rw [hm]; nlinarith
    have h2 : jsMod d 360 ≤ 0 := by rw [hm]; nlinarith
    rw [normalize360]
    split
    · constructor <;> [linarith; linarith]
    · rename_i hnot
      have : jsMod d 360 = 0 := le_antisymm h2 (not_lt.mp hnot)
      rw [this]
      norm_num

lemma nak_spec (lon : ℚ) :
    0 ≤ (nakFromLon lon).index ∧ (nakFromLon lon).index < 27 ∧
    0 ≤ (nakFromLon lon).fracElapsed ∧ (nakFromLon lon).fracElapsed < 1 := by
  obtain ⟨h0, h1⟩ := normalize360_bounds lon
  have hL : (0 : ℚ) < NAK_LEN_DEG := by norm_num [NAK_LEN_DEG]
  set d := normalize360 lon with hd
  have hidx : (nakFromLon lon).index = ⌊d / NAK_LEN_DEG⌋ := rfl
  have hfrac : (nakFromLon lon).fracElapsed =
      (d - (⌊d / NAK_LEN_DEG⌋ : ℚ) * NAK_LEN_DEG) / NAK_LEN_DEG := rfl
  have hq0 : 0 ≤ d / NAK_LEN_DEG := div_nonneg h0 hL.le
  have hq1 : d / NAK_LEN_DEG < 27 := by
    rw [div_lt_iff₀ hL]
    norm_num [NAK_LEN_DEG]
    linarith
  have hfl : (⌊d / NAK_LEN_DEG⌋ : ℚ) * NAK_LEN_DEG ≤ d := by
    have h := mul_le_mul_of_nonneg_right (Int.floor_le (d / NAK_LEN_DEG)) hL.le
    rwa [div_mul_cancel₀ d hL.ne'] at h
  have hfu : d < ((⌊d / NAK_LEN_DEG⌋ : ℚ) + 1) * NAK_LEN_DEG := by
    have h := mul_lt_mul_of_pos_right (Int.lt_floor_add_one (d / NAK_LEN_DEG)) hL
    rwa [div_mul_cancel₀ d hL.ne'] at h
  refine ⟨?_, ?_, ?_, ?_⟩
  · rw [hidx]; exact Int.floor_nonneg.mpr hq0
  · rw [hidx]
    exact Int.floor_lt.mpr (by exact_mod_cast hq1)
  · rw [hfrac]
    exact div_nonneg (by linarith) hL.le
  · rw [hfrac, div_lt_one hL]
    nlinarith

/-- Claim C10: for every rational longitude (negative, zero, or at and
beyond 360 degrees), nakFromLon is total and yields a nakshatra index in
0..26 and a fractional elapsed value in [0, 1). -/
theorem nakFromLon_total (lonDeg : ℚ) :
    0 ≤ (nakFromLon lonDeg).index ∧ (nakFromLon lonDeg).index < 27 ∧
    0 ≤ (nakFromLon lonDeg).fracElapsed ∧ (nakFromLon lonDeg).fracElapsed < 1 :=
  nak_spec lonDeg

/-! Facts about rotateFromStart. -/

lemma rotate_eq_drop_take (s : String) :
    ∃ i, i ≤ 8 ∧ rotateFromStart s = LORDS.drop i ++ LORDS.take i := by
  unfold rotateFromStart
  split
  · rename_i h
    refine ⟨LORDS.indexOf s, ?_, rfl⟩
    have hmem : s ∈ LORDS := by simpa using h
    have hlt : LORDS.indexOf s < LORDS.length := List.indexOf_lt_length.mpr hmem
    simpa [LORDS] using Nat.lt_succ_iff.mp (by simpa [LORDS] using hlt)
  · exact ⟨8, by norm_num, rfl⟩

lemma rotate_sumW (s : String) : sumW (rotateFromStart s) YEARS = 120 := by
  obtain ⟨i, _, hrot⟩ := rotate_eq_drop_take s
  rw [hrot]
  have hcomm : sumW (LORDS.drop i ++ LORDS.take i) YEARS =
      sumW (LORDS.take i ++ LORDS.drop i) YEARS := by
    simp only [sumW, List.map_append, List.sum_append]
    ring
  rw [hcomm, List.take_append_drop]
  exact sumW_LORDS

lemma rotate_subset (s : String) : ∀ x ∈ rotateFromStart s, x ∈ LORDS := by
  obtain ⟨i, _, hrot⟩ := rotate_eq_drop_take s
  rw [hrot]
  intro x hx
  rcases List.mem_append.mp hx with h | h
  · exact List.drop_subset i LORDS h
  · exact List.take_subset i LORDS h

lemma rotate_length (s : String) : (rotateFromStart s).length = 9 := by
  obtain ⟨i, hi, hrot⟩ := rotate_eq_drop_take s
  rw [hrot]
  have : LORDS.length = 9 := rfl
  simp [List.length_append, List.length_drop, List.length_take, this]
  omega

lemma rotate_ne_nil (s : String) : rotateFromStart s ≠ [] := by
  intro h
  have := rotate_length s
  rw [h] at this
  simp at this

lemma startLordOf_mem (lonDeg : ℚ) : startLordOf lonDeg ∈ LORDS := by
  have h0 : 0 ≤ (nakFromLon lonDeg).index % 9 := Int.emod_nonneg _ (by norm_num)
  have h9 : (nakFromLon lonDeg).index % 9 < 9 := Int.emod_lt_of_pos _ (by norm_num)
  have hlt : ((nakFromLon lonDeg).index % 9).toNat < 9 := by omega
  have hall : ∀ k, k < 9 → LORDS.getD k "" ∈ LORDS := by decide
  exact hall _ hlt

/-! Facts about tilesFromB. -/

lemma tilesFromB_nil {a b : ℚ} : tilesFromB a [] b = true ↔ a = b := by
  simp [tilesFromB]

lemma tilesFromB_cons {a b : ℚ} {p : ℚ × ℚ} {t : List (ℚ × ℚ)} :
    tilesFromB a (p :: t) b = true ↔ p.1 = a ∧ tilesFromB p.2 t b = true := by
  simp [tilesFromB]

lemma tilesFromB_append {a b c : ℚ} {l1 l2 : List (ℚ × ℚ)}
    (h1 : tilesFromB a l1 b = true) (h2 : tilesFromB b l2 c = true) :
    tilesFromB a (l1 ++ l2) c = true := by
  induction l1 generalizing a with
  | nil =>
    rw [tilesFromB_nil] at h1
    simpa [h1] using h2
  | cons p t ih =>
    rw [tilesFromB_cons] at h1
    rw [List.cons_append, tilesFromB_cons]
    exact ⟨h1.1, ih h1.2⟩

lemma tiles_sum {l : List (ℚ × ℚ)} {a b : ℚ} (h : tilesFromB a l b = true) :
    (l.map fun p => p.2 - p.1).sum = b - a := by
  induction l generalizing a with
  | nil =>
    rw [tilesFromB_nil] at h
    simp [h]
  | cons p t ih =>
    rw [tilesFromB_cons] at h
    obtain ⟨h1, h2⟩ := h
    have := ih h2
    simp only [List.map_cons, List.sum_cons, this, h1]
    ring

lemma tiles_le {l : List (ℚ × ℚ)} {a b : ℚ} (h : tilesFromB a l b = true)
    (hn : ∀ p ∈ l, p.1 ≤ p.2) : a ≤ b := by
  induction l generalizing a with
  | nil => rw [tilesFromB_nil] at h; exact h.le
  | cons p t ih =>
    rw [tilesFromB_cons] at h
    have h1 := hn p (List.mem_cons_self p t)
    have h2 := ih h.2 fun q hq => hn q (List.mem_cons_of_mem _ hq)
    rw [← h.1] at *
    linarith

lemma tiles_bounds {l : List (ℚ × ℚ)} {a b : ℚ} (h : tilesFromB a l b = true)
    (hn : ∀ p ∈ l, p.1 ≤ p.2) : ∀ p ∈ l, a ≤ p.1 ∧ p.2 ≤ b := by
  induction l generalizing a with
  | nil => intro p hp; exact absurd hp (List.not_mem_nil p)
  | cons q t ih =>
    rw [tilesFromB_cons] at h
    intro p hp
    have hq := hn q (List.mem_cons_self q t)
    have hrest := fun r hr => hn r (List.mem_cons_of_mem _ hr)
    rcases List.mem_cons.mp hp with rfl | hp
    · exact ⟨h.1.ge, by have := tiles_le h.2 hrest; linarith⟩
    · have := ih h.2 hrest p hp
      constructor
      · calc a = q.1 := h.1.symm
          _ ≤ q.2 := hq
          _ ≤ p.1 := this.1
      · exact this.2

lemma tiles_pairwise {l : List (ℚ × ℚ)} {a b : ℚ} (h : tilesFromB a l b = true)
    (hn : ∀ p ∈ l, p.1 ≤ p.2) : (l.map Prod.fst).Pairwise (· ≤ ·) := by
  induction l generalizing a with
  | nil => simp
  | cons q t ih =>
    rw [tilesFromB_cons] at h
    have hrest := fun r hr => hn r (List.mem_cons_of_mem _ hr)
    simp only [List.map_cons, List.pairwise_cons]
    constructor
    · intro x hx
      rcases List.mem_map.mp hx with ⟨p, hp, rfl⟩
      have hb := tiles_bounds h.2 hrest p hp
      have hq := hn q (List.mem_cons_self q t)
      rw [h.1] at hq
      linarith [hb.1]
    · exact ih h.2 hrest

lemma tiles_getLast {l : List (ℚ × ℚ)} {a b : ℚ} (h : tilesFromB a l b = true)
    (hne : l ≠ []) : l.getLast?.map (fun p => p.2) = some b := by
  induction l generalizing a with
  | nil => exact absurd rfl hne
  | cons q t ih =>
    rw [tilesFromB_cons] at h
    cases t with
    | nil =>
      rw [tilesFromB_nil] at h
      simp [h.2]
    | cons r s =>
      rw [List.getLast?_cons_cons]
      exact ih h.2 (by simp)

lemma tiles_head {l : List (ℚ × ℚ)} {a b : ℚ} (h : tilesFromB a l b = true)
    (hne : l ≠ []) : l.head?.map (fun p => p.1) = some a := by
  cases l with
  | nil => exact absurd rfl hne
  | cons q t =>
    rw [tilesFromB_cons] at h
    simp [h.1]

/-! Facts about buildWeightedSegments. -/

lemma bwsGo_lords (ps pd tot : ℚ) (w : String → ℚ) :
    ∀ (order : List String) (cursor : ℚ),
      (bwsGo ps pd tot w cursor order).map (·.lord) = order := by
  intro order
  induction order with
  | nil => intro cursor; simp [bwsGo]
  | cons lord rest ih => intro cursor; simp [bwsGo, ih]

lemma bws_lords (ps pd : ℚ) (order : List String) (w : String → ℚ) :
    (buildWeightedSegments ps pd order w).map (·.lord) = order :=
  bwsGo_lords ps pd (sumW order w) w order ps

lemma bwsGo_end_eq (ps pd tot : ℚ) (w : String → ℚ) :
    ∀ (order : List String) (cursor : ℚ),
      ∀ sg ∈ bwsGo ps pd tot w cursor order, sg.endMs = sg.startMs + sg.durationMs := by
  intro order
  induction order with
  | nil => intro cursor sg hsg; simp [bwsGo] at hsg
  | cons lord rest ih =>
    intro cursor sg hsg
    simp only [bwsGo, List.mem_cons] at hsg
    rcases hsg with rfl | hsg
    · rfl
    · exact ih _ sg hsg

lemma bwsGo_tiles (ps pd tot : ℚ) (w : String → ℚ) :
    ∀ (order : List String) (cursor : ℚ), order ≠ [] →
      tilesFromB cursor (segIntervals (bwsGo ps pd tot w cursor order)) (ps + pd) = true := by
  intro order
  induction order with
  | nil => intro cursor h; exact absurd rfl h
  | cons lord rest ih =>
    intro cursor _
    cases rest with
    | nil =>
      simp only [bwsGo, List.isEmpty_nil, if_true, segIntervals, List.map_cons, List.map_nil]
      rw [tilesFromB_cons]
      refine ⟨rfl, ?_⟩
      rw [tilesFromB_nil]
      ring
    | cons r s =>
      have hstep : bwsGo ps pd tot w cursor (lord :: r :: s) =
          ⟨lord, cursor, cursor + pd * (w lord / tot), pd * (w lord / tot)⟩ ::
            bwsGo ps pd tot w (cursor + pd * (w lord / tot)) (r :: s) := rfl
      rw [hstep, segIntervals, List.map_cons, tilesFromB_cons]
      exact ⟨rfl, ih _ (by simp)⟩

lemma bwsGo_dur (ps pd tot : ℚ) (w : String → ℚ) :
    ∀ (order : List String) (cursor : ℚ) (i : ℕ), i + 1 < order.length →
      ((bwsGo ps pd tot w cursor order).getD i segDefault).durationMs =
        pd * (w (order.getD i "") / tot) := by
  intro order
  induction order with
  | nil => intro cursor i hi; simp at hi
  | cons lord rest ih =>
    intro cursor i hi
    cases i with
    | zero =>
      have hne : rest ≠ [] := by
        intro h
        rw [h] at hi
        simp at hi
      cases rest with
      | nil => exact absurd rfl hne
      | cons r s => simp [bwsGo]
    | succ i =>
      cases rest with
      | nil => simp at hi
      | cons r s =>
        have hi2 : i + 1 < (r :: s).length := by
          simpa using Nat.lt_of_succ_lt_succ hi
        simpa [bwsGo] using ih _ i hi2

lemma bwsGo_nonneg (ps pd tot : ℚ) (w : String → ℚ) (hpd : 0 ≤ pd) (htot : 0 < tot) :
    ∀ (order : List String) (cursor : ℚ),
      (∀ l ∈ order, 0 < w l) →
      cursor + pd * (sumW order w / tot) ≤ ps + pd →
      cursor ≤ ps + pd →
      ∀ sg ∈ bwsGo ps pd tot w cursor order, 0 ≤ sg.durationMs := by
  intro order
  induction order with
  | nil => intro cursor _ _ _ sg hsg; simp [bwsGo] at hsg
  | cons lord rest ih =>
    intro cursor hpos hinv1 hinv2 sg hsg
    cases rest with
    | nil =>
      simp only [bwsGo, List.isEmpty_nil, if_true, List.mem_cons, List.not_mem_nil,
        or_false] at hsg
      cases hsg
      simpa using sub_nonneg.mpr hinv2
    | cons r s =>
      have hw : 0 < w lord := hpos lord (List.mem_cons_self _ _)
      have hwr : ∀ l ∈ r :: s, 0 < w l := fun l hl => hpos l (List.mem_cons_of_mem _ hl)
      have hseg : 0 ≤ pd * (w lord / tot) :=
        mul_nonneg hpd (div_nonneg hw.le htot.le)
      have hsum : sumW (lord :: r :: s) w = w lord + sumW (r :: s) w := sumW_cons _ _ _
      have hinv1a : cursor + pd * (w lord / tot) + pd * (sumW (r :: s) w / tot) ≤ ps + pd := by
        have : pd * (w lord / tot) + pd * (sumW (r :: s) w / tot) =
            pd * (sumW (lord :: r :: s) w / tot) := by
          rw [hsum]
          ring
        linarith [hinv1, this.le, this.ge]
      have hrest_nonneg : 0 ≤ pd * (sumW (r :: s) w / tot) :=
        mul_nonneg hpd (div_nonneg (sumW_nonneg fun l hl => (hwr l hl).le) htot.le)
      have hstep : bwsGo ps pd tot w cursor (lord :: r :: s) =
          ⟨lord, cursor, cursor + pd * (w lord / tot), pd * (w lord / tot)⟩ ::
            bwsGo ps pd tot w (cursor + pd * (w lord / tot)) (r :: s) := rfl
      rw [hstep] at hsg
      rcases List.mem_cons.mp hsg with rfl | hsg
      · exact hseg
      · exact ih (cursor + pd * (w lord / tot)) hwr hinv1a (by linarith) sg hsg

lemma bws_levelOK (ps pd : ℚ) (order : List String) (w : String → ℚ)
    (hpd : 0 ≤ pd) (hne : order ≠ []) (hpos : ∀ l ∈ order, 0 < w l) :
    levelOK ps (ps + pd) (segIntervals (buildWeightedSegments ps pd order w)) ∧
    ∀ sg ∈ buildWeightedSegments ps pd order w,
      0 ≤ sg.durationMs ∧ sg.endMs = sg.startMs + sg.durationMs := by
  have htot : 0 < sumW order w := sumW_pos hne hpos
  have htiles : tilesFromB ps (segIntervals (buildWeightedSegments ps pd order w))
      (ps + pd) = true :=
    bwsGo_tiles ps pd (sumW order w) w order ps hne
  have hinv1 : ps + pd * (sumW order w / sumW order w) ≤ ps + pd := by
    rw [div_self htot.ne']
    simp
  have hnn : ∀ sg ∈ buildWeightedSegments ps pd order w, 0 ≤ sg.durationMs :=
    bwsGo_nonneg ps pd (sumW order w) w hpd htot order ps hpos hinv1 (by linarith)
  have hend : ∀ sg ∈ buildWeightedSegments ps pd order w,
      sg.endMs = sg.startMs + sg.durationMs :=
    bwsGo_end_eq ps pd (sumW order w) w order ps
  have hple : ∀ p ∈ segIntervals (buildWeightedSegments ps pd order w), p.1 ≤ p.2 := by
    intro p hp
    rcases List.mem_map.mp hp with ⟨sg, hsg, rfl⟩
    have h1 := hnn sg hsg
    have h2 := hend sg hsg
    simp only
    linarith [h2.le, h2.ge]
  refine ⟨⟨htiles, tiles_sum htiles, tiles_pairwise htiles hple, hple⟩, ?_⟩
  exact fun sg hsg => ⟨hnn sg hsg, hend sg hsg⟩

/-! Field laws of the node builders. -/

@[simp] lemma mkPD_lord (tbl : InterpTable) (adLord : String) (pd : Seg) :
    (mkPD tbl adLord pd).lord = pd.lord := rfl

@[simp] lemma mkPD_startMs (tbl : InterpTable) (adLord : String) (pd : Seg) :
    (mkPD tbl adLord pd).startMs = pd.startMs := rfl

@[simp] lemma mkPD_endMs (tbl : InterpTable) (adLord : String) (pd : Seg) :
    (mkPD tbl adLord pd).endMs = pd.endMs := rfl

@[simp] lemma mkAD_lord (tbl : InterpTable) (mdLord : String) (seg : Seg) :
    (mkAD tbl mdLord seg).lord = seg.lord := rfl

@[simp] lemma mkAD_startMs (tbl : InterpTable) (mdLord : String) (seg : Seg) :
    (mkAD tbl mdLord seg).startMs = seg.startMs := rfl

@[simp] lemma mkAD_endMs (tbl : InterpTable) (mdLord : String) (seg : Seg) :
    (mkAD tbl mdLord seg).endMs = seg.endMs := rfl

lemma mkAD_pratyantar (tbl : InterpTable) (mdLord : String) (seg : Seg) :
    (mkAD tbl mdLord seg).pratyantar =
      (buildWeightedSegments seg.startMs seg.durationMs (rotateFromStart seg.lord)
        YEARS).map (mkPD tbl seg.lord) := rfl

@[simp] lemma mkMD_lord (tbl : InterpTable) (l : String) (s e : ℚ) :
    (mkMD tbl l s e).lord = l := rfl

@[simp] lemma mkMD_startMs (tbl : InterpTable) (l : String) (s e : ℚ) :
    (mkMD tbl l s e).startMs = s := rfl

@[simp] lemma mkMD_endMs (tbl : InterpTable) (l : String) (s e : ℚ) :
    (mkMD tbl l s e).endMs = e := rfl

@[simp] lemma mkMD_years (tbl : InterpTable) (l : String) (s e : ℚ) :
    (mkMD tbl l s e).years = YEARS l := rfl

@[simp] lemma mkMD_days (tbl : InterpTable) (l : String) (s e : ℚ) :
    (mkMD tbl l s e).days = (e - s) / MS_PER_DAY := rfl

lemma mkMD_antar (tbl : InterpTable) (l : String) (s e : ℚ) :
    (mkMD tbl l s e).antar =
      (buildWeightedSegments s (e - s) (rotateFromStart l) YEARS).map (mkAD tbl l) := rfl

lemma mkMD_antar_lords (tbl : InterpTable) (l : String) (s e : ℚ) :
    (mkMD tbl l s e).antar.map (·.lord) = rotateFromStart l := by
  rw [mkMD_antar, List.map_map]
  have : ((·.lord) ∘ mkAD tbl l : Seg → String) = (·.lord) := rfl
  rw [this]
  exact bws_lords _ _ _ _

lemma mkMD_ad_lords (tbl : InterpTable) (l : String) (s e : ℚ) :
    ∀ ad ∈ (mkMD tbl l s e).antar,
      ad.pratyantar.map (·.lord) = rotateFromStart ad.lord := by
  intro ad had
  rw [mkMD_antar] at had
  rcases List.mem_map.mp had with ⟨sg, _, rfl⟩
  rw [mkAD_pratyantar, List.map_map, mkAD_lord]
  have : ((·.lord) ∘ mkPD tbl sg.lord : Seg → String) = (·.lord) := rfl
  rw [this]
  exact bws_lords _ _ _ _

lemma mkMD_interp (tbl : InterpTable) (l : String) (s e : ℚ) :
    ∀ ad ∈ (mkMD tbl l s e).antar,
      ad.interpretation = interpFor tbl l ad.lord ∧
      ∀ pdn ∈ ad.pratyantar, pdn.interpretation = interpFor tbl ad.lord pdn.lord := by
  intro ad had
  rw [mkMD_antar] at had
  rcases List.mem_map.mp had with ⟨sg, _, rfl⟩
  constructor
  · rfl
  · intro pdn hpdn
    rw [mkAD_pratyantar] at hpdn
    rcases List.mem_map.mp hpdn with ⟨psg, _, rfl⟩
    rfl

lemma mkMD_children (tbl : InterpTable) (l : String) (s e : ℚ) (hse : s ≤ e) :
    levelOK s e (intervalsOfMD (mkMD tbl l s e)) ∧
    ∀ ad ∈ (mkMD tbl l s e).antar,
      ad.startMs ≤ ad.endMs ∧
      levelOK ad.startMs ad.endMs (intervalsOfAD ad) ∧
      ∀ pdn ∈ ad.pratyantar, pdn.startMs ≤ pdn.endMs := by
  have hne : rotateFromStart l ≠ [] := rotate_ne_nil l
  have hpos : ∀ x ∈ rotateFromStart l, 0 < YEARS x :=
    fun x hx => years_pos_of_mem (rotate_subset l x hx)
  have hpd : 0 ≤ e - s := by linarith
  obtain ⟨hlv, hsegs⟩ := bws_levelOK s (e - s) (rotateFromStart l) YEARS hpd hne hpos
  have hse2 : s + (e - s) = e := by ring
  have hints : intervalsOfMD (mkMD tbl l s e) =
      segIntervals (buildWeightedSegments s (e - s) (rotateFromStart l) YEARS) := by
    rw [intervalsOfMD, mkMD_antar, List.map_map]
    rfl
  constructor
  · rw [hints]
    rw [hse2] at hlv
    exact hlv
  · intro ad had
    rw [mkMD_antar] at had
    rcases List.mem_map.mp had with ⟨sg, hsg, rfl⟩
    obtain ⟨hdur, hend⟩ := hsegs sg hsg
    have hsegne : rotateFromStart sg.lord ≠ [] := rotate_ne_nil sg.lord
    have hsegpos : ∀ x ∈ rotateFromStart sg.lord, 0 < YEARS x :=
      fun x hx => years_pos_of_mem (rotate_subset sg.lord x hx)
    obtain ⟨hlv2, hsegs2⟩ :=
      bws_levelOK sg.startMs sg.durationMs (rotateFromStart sg.lord) YEARS hdur hsegne hsegpos
    have hints2 : intervalsOfAD (mkAD tbl l sg) =
        segIntervals (buildWeightedSegments sg.startMs sg.durationMs
          (rotateFromStart sg.lord) YEARS) := by
      rw [intervalsOfAD, mkAD_pratyantar, List.map_map]
      rfl
    refine ⟨?_, ?_, ?_⟩
    · simp only [mkAD_startMs, mkAD_endMs]
      linarith [hend.le, hend.ge]
    · rw [mkAD_startMs, mkAD_endMs, hints2, hend]
      exact hlv2
    · intro pdn hpdn
      rw [mkAD_pratyantar] at hpdn
      rcases List.mem_map.mp hpdn with ⟨psg, hpsg, rfl⟩
      obtain ⟨hd2, he2⟩ := hsegs2 psg hpsg
      simp only [mkPD_startMs, mkPD_endMs]
      linarith [he2.le, he2.ge]

/-! Facts about the Major-period loop. -/

lemma intervalsOfSeq_nil : intervalsOfSeq [] = [] := rfl

lemma intervalsOfSeq_cons (x : MDNode) (l : List MDNode) :
    intervalsOfSeq (x :: l) = (x.startMs, x.endMs) :: intervalsOfSeq l := rfl

lemma intervalsOfSeq_append (l1 l2 : List MDNode) :
    intervalsOfSeq (l1 ++ l2) = intervalsOfSeq l1 ++ intervalsOfSeq l2 := by
  simp [intervalsOfSeq]

lemma mdPass_nil (tbl : InterpTable) (mdStart capEnd : ℚ) :
    mdPass tbl [] mdStart capEnd = ([], mdStart, false) := rfl

lemma mdPass_cons_clip (tbl : InterpTable) (lord : String) (rest : List String)
    (mdStart capEnd : ℚ) (h : capEnd < mdStart + YEAR_MS * YEARS lord) :
    mdPass tbl (lord :: rest) mdStart capEnd = ([mkMD tbl lord mdStart capEnd], mdStart, true) := by
  have hstep : mdPass tbl (lord :: rest) mdStart capEnd =
      if capEnd < mdStart + YEAR_MS * YEARS lord then
        ([mkMD tbl lord mdStart capEnd], mdStart, true)
      else
        (mkMD tbl lord mdStart (mdStart + YEAR_MS * YEARS lord) ::
            (mdPass tbl rest (mdStart + YEAR_MS * YEARS lord) capEnd).1,
          (mdPass tbl rest (mdStart + YEAR_MS * YEARS lord) capEnd).2.1,
          (mdPass tbl rest (mdStart + YEAR_MS * YEARS lord) capEnd).2.2) := rfl
  rw [hstep, if_pos h]

lemma mdPass_cons_full (tbl : InterpTable) (lord : String) (rest : List String)
    (mdStart capEnd : ℚ) (h : ¬capEnd < mdStart + YEAR_MS * YEARS lord) :
    mdPass tbl (lord :: rest) mdStart capEnd =
      (mkMD tbl lord mdStart (mdStart + YEAR_MS * YEARS lord) ::
          (mdPass tbl rest (mdStart + YEAR_MS * YEARS lord) capEnd).1,
        (mdPass tbl rest (mdStart + YEAR_MS * YEARS lord) capEnd).2.1,
        (mdPass tbl rest (mdStart + YEAR_MS * YEARS lord) capEnd).2.2) := by
  have hstep : mdPass tbl (lord :: rest) mdStart capEnd =
      if capEnd < mdStart + YEAR_MS * YEARS lord then
        ([mkMD tbl lord mdStart capEnd], mdStart, true)
      else
        (mkMD tbl lord mdStart (mdStart + YEAR_MS * YEARS lord) ::
            (mdPass tbl rest (mdStart + YEAR_MS * YEARS lord) capEnd).1,
          (mdPass tbl rest (mdStart + YEAR_MS * YEARS lord) capEnd).2.1,
          (mdPass tbl rest (mdStart + YEAR_MS * YEARS lord) capEnd).2.2) := rfl
  rw [hstep, if_neg h]

lemma mdPass_rep (tbl : InterpTable) :
    ∀ (pending : List String) (mdStart capEnd : ℚ),
      ∀ m ∈ (mdPass tbl pending mdStart capEnd).1,
        ∃ l s e, l ∈ pending ∧ m = mkMD tbl l s e := by
  intro pending
  induction pending with
  | nil => intro mdStart capEnd m hm; simp [mdPass_nil] at hm
  | cons lord rest ih =>
    intro mdStart capEnd m hm
    by_cases hc : capEnd < mdStart + YEAR_MS * YEARS lord
    · rw [mdPass_cons_clip tbl lord rest mdStart capEnd hc] at hm
      simp only [List.mem_singleton] at hm
      exact ⟨lord, mdStart, capEnd, List.mem_cons_self _ _, hm⟩
    · rw [mdPass_cons_full tbl lord rest mdStart capEnd hc] at hm
      rcases List.mem_cons.mp hm with rfl | hm
      · exact ⟨lord, mdStart, mdStart + YEAR_MS * YEARS lord, List.mem_cons_self _ _, rfl⟩
      · obtain ⟨l, s, e, hl, hme⟩ := ih _ _ m hm
        exact ⟨l, s, e, List.mem_cons_of_mem _ hl, hme⟩

lemma mdPass_spec (tbl : InterpTable) :
    ∀ (pending : List String) (mdStart capEnd : ℚ),
      (∀ l ∈ pending, l ∈ LORDS) → mdStart ≤ capEnd →
      (∀ m ∈ (mdPass tbl pending mdStart capEnd).1, m.startMs ≤ m.endMs) ∧
      ((mdPass tbl pending mdStart capEnd).2.2 = true →
        tilesFromB mdStart (intervalsOfSeq (mdPass tbl pending mdStart capEnd).1) capEnd = true) ∧
      ((mdPass tbl pending mdStart capEnd).2.2 = false →
        (mdPass tbl pending mdStart capEnd).2.1 = mdStart + YEAR_MS * sumW pending YEARS ∧
        (mdPass tbl pending mdStart capEnd).2.1 ≤ capEnd ∧
        tilesFromB mdStart (intervalsOfSeq (mdPass tbl pending mdStart capEnd).1)
          ((mdPass tbl pending mdStart capEnd).2.1) = true) := by
  intro pending
  induction pending with
  | nil =>
    intro mdStart capEnd _ hle
    rw [mdPass_nil]
    refine ⟨?_, ?_, ?_⟩
    · intro m hm; simp at hm
    · intro h; simp at h
    · intro _
      refine ⟨?_, hle, ?_⟩
      · rw [sumW_nil]; ring
      · rw [intervalsOfSeq_nil, tilesFromB_nil]
  | cons lord rest ih =>
    intro mdStart capEnd hsub hle
    have hlr : ∀ l ∈ rest, l ∈ LORDS := fun l hl => hsub l (List.mem_cons_of_mem _ hl)
    by_cases hc : capEnd < mdStart + YEAR_MS * YEARS lord
    · rw [mdPass_cons_clip tbl lord rest mdStart capEnd hc]
      refine ⟨?_, ?_, ?_⟩
      · intro m hm
        simp only [List.mem_singleton] at hm
        subst hm
        simp [hle]
      · intro _
        rw [intervalsOfSeq_cons, intervalsOfSeq_nil, tilesFromB_cons]
        exact ⟨by simp, by rw [tilesFromB_nil]; simp⟩
      · intro h; simp at h
    · have hdur : 0 ≤ YEAR_MS * YEARS lord := mul_nonneg YEAR_MS_pos.le (years_nonneg lord)
      have hle2 : mdStart + YEAR_MS * YEARS lord ≤ capEnd := not_lt.mp hc
      obtain ⟨ih1, ih2, ih3⟩ := ih (mdStart + YEAR_MS * YEARS lord) capEnd hlr hle2
      rw [mdPass_cons_full tbl lord rest mdStart capEnd hc]
      refine ⟨?_, ?_, ?_⟩
      · intro m hm
        rcases List.mem_cons.mp hm with rfl | hm
        · simp
          linarith
        · exact ih1 m hm
      · intro h
        rw [intervalsOfSeq_cons, tilesFromB_cons]
        exact ⟨by simp, by simpa using ih2 h⟩
      · intro h
        obtain ⟨hs, hsle, ht⟩ := ih3 h
        refine ⟨?_, hsle, ?_⟩
        · rw [hs, sumW_cons]; ring
        · rw [intervalsOfSeq_cons, tilesFromB_cons]
          exact ⟨by simp, by simpa using ht⟩

lemma mdOuter_zero (tbl : InterpTable) (cycle : List String) (mdStart capEnd : ℚ) :
    mdOuter tbl cycle 0 mdStart capEnd = [] := rfl

lemma mdOuter_succ (tbl : InterpTable) (cycle : List String) (fuel : ℕ) (mdStart capEnd : ℚ) :
    mdOuter tbl cycle (fuel + 1) mdStart capEnd =
      if (mdPass tbl (cycle.drop 1) mdStart capEnd).2.2 = true then
        (mdPass tbl (cycle.drop 1) mdStart capEnd).1
      else if (mdPass tbl cycle ((mdPass tbl (cycle.drop 1) mdStart capEnd).2.1)
          capEnd).2.2 = true then
        (mdPass tbl (cycle.drop 1) mdStart capEnd).1 ++
          (mdPass tbl cycle ((mdPass tbl (cycle.drop 1) mdStart capEnd).2.1) capEnd).1
      else
        (mdPass tbl (cycle.drop 1) mdStart capEnd).1 ++
          (mdPass tbl cycle ((mdPass tbl (cycle.drop 1) mdStart capEnd).2.1) capEnd).1 ++
          mdOuter tbl cycle fuel
            ((mdPass tbl cycle ((mdPass tbl (cycle.drop 1) mdStart capEnd).2.1) capEnd).2.1)
            capEnd := rfl

lemma mdOuter_rep (tbl : InterpTable) (cycle : List String) :
    ∀ (fuel : ℕ) (mdStart capEnd : ℚ),
      ∀ m ∈ mdOuter tbl cycle fuel mdStart capEnd, ∃ l s e, l ∈ cycle ∧ m = mkMD tbl l s e := by
  intro fuel
  induction fuel with
  | zero => intro mdStart capEnd m hm; rw [mdOuter_zero] at hm; simp at hm
  | succ fuel ih =>
    intro mdStart capEnd m hm
    have hdrop : ∀ l ∈ cycle.drop 1, l ∈ cycle := fun l hl => List.drop_subset 1 cycle hl
    rw [mdOuter_succ] at hm
    split at hm
    · obtain ⟨l, s, e, hl, hme⟩ := mdPass_rep tbl _ _ _ m hm
      exact ⟨l, s, e, hdrop l hl, hme⟩
    · split at hm
      · rcases List.mem_append.mp hm with hm | hm
        · obtain ⟨l, s, e, hl, hme⟩ := mdPass_rep tbl _ _ _ m hm
          exact ⟨l, s, e, hdrop l hl, hme⟩
        · exact mdPass_rep tbl _ _ _ m hm
      · rcases List.mem_append.mp hm with hm | hm
        · rcases List.mem_append.mp hm with hm | hm
          · obtain ⟨l, s, e, hl, hme⟩ := mdPass_rep tbl _ _ _ m hm
            exact ⟨l, s, e, hdrop l hl, hme⟩
          · exact mdPass_rep tbl _ _ _ m hm
        · exact ih _ _ m hm

lemma mdOuter_spec (tbl : InterpTable) (cycle : List String)
    (hcyc : ∀ l ∈ cycle, l ∈ LORDS) (hsum : sumW cycle YEARS = 120) :
    ∀ (fuel : ℕ) (mdStart capEnd : ℚ), mdStart ≤ capEnd →
      capEnd - mdStart < (fuel : ℚ) * 120 * YEAR_MS →
      tilesFromB mdStart (intervalsOfSeq (mdOuter tbl cycle fuel mdStart capEnd)) capEnd = true ∧
      ∀ m ∈ mdOuter tbl cycle fuel mdStart capEnd, m.startMs ≤ m.endMs := by
  intro fuel
  induction fuel with
  | zero =>
    intro mdStart capEnd hle hbound
    exfalso
    simp only [Nat.cast_zero, zero_mul] at hbound
    linarith
  | succ fuel ih =>
    intro mdStart capEnd hle hbound
    have hdropsub : ∀ l ∈ cycle.drop 1, l ∈ LORDS :=
      fun l hl => hcyc l (List.drop_subset 1 cycle hl)
    have hdropnn : 0 ≤ sumW (cycle.drop 1) YEARS :=
      sumW_nonneg fun l hl => (years_pos_of_mem (hdropsub l hl)).le
    obtain ⟨hA1, hA2, hA3⟩ := mdPass_spec tbl (cycle.drop 1) mdStart capEnd hdropsub hle
    rw [mdOuter_succ]
    split
    · rename_i hAstop
      exact ⟨hA2 hAstop, hA1⟩
    · rename_i hAgo
      have hAfalse : (mdPass tbl (cycle.drop 1) mdStart capEnd).2.2 = false := by
        simpa using hAgo
      obtain ⟨hsA, hleA, htA⟩ := hA3 hAfalse
      obtain ⟨hB1, hB2, hB3⟩ :=
        mdPass_spec tbl cycle ((mdPass tbl (cycle.drop 1) mdStart capEnd).2.1) capEnd hcyc hleA
      split
      · rename_i hBstop
        constructor
        · rw [intervalsOfSeq_append]
          exact tilesFromB_append htA (hB2 hBstop)
        · intro m hm
          rcases List.mem_append.mp hm with hm | hm
          · exact hA1 m hm
          · exact hB1 m hm
      · rename_i hBgo
        have hBfalse : (mdPass tbl cycle ((mdPass tbl (cycle.drop 1) mdStart capEnd).2.1)
            capEnd).2.2 = false := by simpa using hBgo
        obtain ⟨hsB, hleB, htB⟩ := hB3 hBfalse
        have hbound2 : capEnd - (mdPass tbl cycle
            ((mdPass tbl (cycle.drop 1) mdStart capEnd).2.1) capEnd).2.1 <
            (fuel : ℚ) * 120 * YEAR_MS := by
          rw [hsB, hsA, hsum]
          push_cast at hbound
          nlinarith [YEAR_MS_pos, hdropnn, mul_nonneg YEAR_MS_pos.le hdropnn]
        obtain ⟨htR, hbR⟩ := ih _ capEnd hleB hbound2
        constructor
        · rw [intervalsOfSeq_append, intervalsOfSeq_append]
          exact tilesFromB_append (tilesFromB_append htA htB) htR
        · intro m hm
          rcases List.mem_append.mp hm with hm | hm
          · rcases List.mem_append.mp hm with hm | hm
            · exact hA1 m hm
            · exact hB1 m hm
          · exact hbR m hm

/-! Characterization of computeVimshottari's result. -/

lemma computeVimshottari_eq (toInstant : String → String → String → ℚ)
    (tbl : InterpTable) (inp : VimInput) :
    computeVimshottari toInstant tbl inp =
      if (falsyStr inp.birthDate || falsyStr inp.birthTime || falsyStr inp.timeZone ||
          inp.moonSiderealDeg.isNone) = true then
        .error "Invalid payload for computeVimshottari"
      else if capOf toInstant inp ≤ mdEndOf toInstant inp then
        .ok ⟨⟨birthOf toInstant inp, startLordOf (lonOf inp)⟩,
          [mkMD tbl (startLordOf (lonOf inp)) (birthOf toInstant inp) (mdEndOf toInstant inp)]⟩
      else
        .ok ⟨⟨birthOf toInstant inp, startLordOf (lonOf inp)⟩,
          mkMD tbl (startLordOf (lonOf inp)) (birthOf toInstant inp) (mdEndOf toInstant inp) ::
            mdOuter tbl (rotateFromStart (startLordOf (lonOf inp)))
              (mdFuel (capOf toInstant inp - mdEndOf toInstant inp))
              (mdEndOf toInstant inp) (capOf toInstant inp)⟩ := rfl

lemma mdRemaining_nonneg (lonDeg : ℚ) : 0 ≤ mdRemainingOf lonDeg := by
  unfold mdRemainingOf
  have hf := nak_spec lonDeg
  have hT : 0 ≤ YEAR_MS * YEARS (startLordOf lonDeg) :=
    mul_nonneg YEAR_MS_pos.le (years_nonneg _)
  nlinarith [hf.2.2.1, hf.2.2.2]

lemma birth_le_mdEnd (toInstant : String → String → String → ℚ) (inp : VimInput)
    (hty : 0 < tyOf inp) : birthOf toInstant inp ≤ mdEndOf toInstant inp := by
  have hcap : birthOf toInstant inp ≤ capOf toInstant inp := by
    unfold capOf
    nlinarith [YEAR_MS_pos, hty]
  have hrem := mdRemaining_nonneg (lonOf inp)
  exact le_min (by linarith) hcap

lemma mdEnd_le_cap (toInstant : String → String → String → ℚ) (inp : VimInput) :
    mdEndOf toInstant inp ≤ capOf toInstant inp := min_le_right _ _

lemma mdFuel_bound (spanMs : ℚ) (hspan : 0 < spanMs) :
    spanMs < (mdFuel spanMs : ℚ) * 120 * YEAR_MS := by
  have hq : 0 < spanMs / YEAR_MS := div_pos hspan YEAR_MS_pos
  have hceil0 : (0 : ℤ) ≤ ⌈spanMs / YEAR_MS⌉ := Int.ceil_nonneg hq.le
  have hcast : ((⌈spanMs / YEAR_MS⌉.toNat : ℕ) : ℚ) = (⌈spanMs / YEAR_MS⌉ : ℚ) := by
    exact_mod_cast Int.toNat_of_nonneg hceil0
  have hle : spanMs ≤ (⌈spanMs / YEAR_MS⌉ : ℚ) * YEAR_MS := by
    have h1 : spanMs / YEAR_MS ≤ (⌈spanMs / YEAR_MS⌉ : ℚ) := Int.le_ceil _
    calc spanMs = spanMs / YEAR_MS * YEAR_MS := (div_mul_cancel₀ _ YEAR_MS_pos.ne').symm
      _ ≤ (⌈spanMs / YEAR_MS⌉ : ℚ) * YEAR_MS := mul_le_mul_of_nonneg_right h1 YEAR_MS_pos.le
  have hcq : (0 : ℚ) ≤ (⌈spanMs / YEAR_MS⌉ : ℚ) := by exact_mod_cast hceil0
  unfold mdFuel
  push_cast [hcast]
  nlinarith [YEAR_MS_pos]

lemma ok_sequence_rep (toInstant : String → String → String → ℚ) (tbl : InterpTable)
    (inp : VimInput) (out : VimOutput)
    (heq : computeVimshottari toInstant tbl inp = .ok out) :
    ∀ m ∈ out.sequence, ∃ l s e, l ∈ LORDS ∧ m = mkMD tbl l s e := by
  rw [computeVimshottari_eq] at heq
  split at heq
  · exact absurd heq (by simp)
  · split at heq
    · cases heq
      intro m hm
      simp only [List.mem_singleton] at hm
      exact ⟨startLordOf (lonOf inp), _, _, startLordOf_mem _, hm⟩
    · cases heq
      intro m hm
      rcases List.mem_cons.mp hm with rfl | hm
      · exact ⟨startLordOf (lonOf inp), _, _, startLordOf_mem _, rfl⟩
      · obtain ⟨l, s, e, hl, hme⟩ := mdOuter_rep tbl _ _ _ _ m hm
        exact ⟨l, s, e, rotate_subset _ l hl, hme⟩

lemma ok_sequence_spec (toInstant : String → String → String → ℚ) (tbl : InterpTable)
    (inp : VimInput) (out : VimOutput) (hty : 0 < tyOf inp)
    (heq : computeVimshottari toInstant tbl inp = .ok out) :
    tilesFromB (birthOf toInstant inp) (intervalsOfSeq out.sequence)
      (capOf toInstant inp) = true ∧
    ∀ m ∈ out.sequence, m.startMs ≤ m.endMs := by
  have hbm := birth_le_mdEnd toInstant inp hty
  have hmc := mdEnd_le_cap toInstant inp
  rw [computeVimshottari_eq] at heq
  split at heq
  · exact absurd heq (by simp)
  · split at heq
    · rename_i hval hle
      cases heq
      have hed : mdEndOf toInstant inp = capOf toInstant inp := le_antisymm hmc hle
      constructor
      · rw [intervalsOfSeq_cons, intervalsOfSeq_nil, tilesFromB_cons, tilesFromB_nil]
        simp [hed]
      · intro m hm
        simp only [List.mem_singleton] at hm
        subst hm
        simp
        linarith
    · rename_i hval hgt
      cases heq
      have hlt : mdEndOf toInstant inp < capOf toInstant inp := not_le.mp hgt
      obtain ⟨ht, hb⟩ := mdOuter_spec tbl (rotateFromStart (startLordOf (lonOf inp)))
        (rotate_subset _) (rotate_sumW _)
        (mdFuel (capOf toInstant inp - mdEndOf toInstant inp)) (mdEndOf toInstant inp)
        (capOf toInstant inp) hmc
        (by
          have := mdFuel_bound (capOf toInstant inp - mdEndOf toInstant inp) (by linarith)
          linarith)
      constructor
      · rw [intervalsOfSeq_cons, tilesFromB_cons]
        exact ⟨by simp, by simpa using ht⟩
      · intro m hm
        rcases List.mem_cons.mp hm with rfl | hm
        · simp
          linarith
        · exact hb m hm

lemma computeVimshottari_ok_getD (toInstant : String → String → String → ℚ)
    (tbl : InterpTable) (inp : VimInput)
    (hval : (falsyStr inp.birthDate || falsyStr inp.birthTime || falsyStr inp.timeZone ||
      inp.moonSiderealDeg.isNone) = false) :
    computeVimshottari toInstant tbl inp =
      .ok ((computeVimshottari toInstant tbl inp).toOption.getD outDefault) := by
  rw [computeVimshottari_eq, hval]
  simp only [Bool.false_eq_true, if_false]
  split <;> rfl

/-- Claim C1: for every call to buildWeightedSegments with a non-empty
ordered lord list and strictly positive weights, it returns one interval
per input lord in input order, laid out back-to-back starting at
parentStart; every lord except the last gets duration
parentDuration * weight(lord) / sum(weights over the ordered lords), and
the last lord's interval ends exactly at parentStart + parentDuration. -/
theorem buildWeightedSegments_allocates (parentStartMs parentDurMs : ℚ)
    (order : List String) (weightsYears : String → ℚ)
    (hne : order ≠ []) (hpos : ∀ l ∈ order, 0 < weightsYears l) :
    (buildWeightedSegments parentStartMs parentDurMs order weightsYears).map (·.lord) = order ∧
    tilesFromB parentStartMs
      (segIntervals (buildWeightedSegments parentStartMs parentDurMs order weightsYears))
      (parentStartMs + parentDurMs) = true ∧
    (∀ i, i + 1 < order.length →
      ((buildWeightedSegments parentStartMs parentDurMs order weightsYears).getD i
          segDefault).durationMs =
        parentDurMs * (weightsYears (order.getD i "") / sumW order weightsYears)) ∧
    (buildWeightedSegments parentStartMs parentDurMs order weightsYears).getLast?.map
      (·.endMs) = some (parentStartMs + parentDurMs) := by
  have ht : tilesFromB parentStartMs
      (segIntervals (buildWeightedSegments parentStartMs parentDurMs order weightsYears))
      (parentStartMs + parentDurMs) = true :=
    bwsGo_tiles parentStartMs parentDurMs (sumW order weightsYears) weightsYears order
      parentStartMs hne
  refine ⟨bws_lords _ _ _ _, ht, ?_, ?_⟩
  · intro i hi
    exact bwsGo_dur parentStartMs parentDurMs (sumW order weightsYears) weightsYears order
      parentStartMs i hi
  · have hne2 : buildWeightedSegments parentStartMs parentDurMs order weightsYears ≠ [] := by
      intro h
      have hl := bws_lords parentStartMs parentDurMs order weightsYears
      rw [h] at hl
      exact hne hl.symm
    have hlast := tiles_getLast ht (by simpa [segIntervals] using hne2)
    rw [segIntervals, List.getLast?_map, Option.map_map] at hlast
    exact hlast

/-- Witness for C1, at the spec's own example: weights Ketu 7, Venus 20,
Sun 6 over a 33-day parent span. -/
theorem buildWeightedSegments_allocates_witness :
    ((["Ketu", "Venus", "Sun"] : List String) ≠ [] ∧
      ∀ l ∈ (["Ketu", "Venus", "Sun"] : List String), 0 < YEARS l) ∧
    ((buildWeightedSegments 0 (33 * MS_PER_DAY) ["Ketu", "Venus", "Sun"] YEARS).map
        (·.lord) = ["Ketu", "Venus", "Sun"] ∧
      tilesFromB 0
        (segIntervals (buildWeightedSegments 0 (33 * MS_PER_DAY) ["Ketu", "Venus", "Sun"] YEARS))
        (0 + 33 * MS_PER_DAY) = true ∧
      (∀ i, i + 1 < (["Ketu", "Venus", "Sun"] : List String).length →
        ((buildWeightedSegments 0 (33 * MS_PER_DAY) ["Ketu", "Venus", "Sun"] YEARS).getD i
            segDefault).durationMs =
          33 * MS_PER_DAY *
            (YEARS ((["Ketu", "Venus", "Sun"] : List String).getD i "") /
              sumW ["Ketu", "Venus", "Sun"] YEARS)) ∧
      (buildWeightedSegments 0 (33 * MS_PER_DAY) ["Ketu", "Venus", "Sun"] YEARS).getLast?.map
        (·.endMs) = some (0 + 33 * MS_PER_DAY)) :=
  ⟨⟨by decide, by decide⟩,
    buildWeightedSegments_allocates 0 (33 * MS_PER_DAY) ["Ketu", "Venus", "Sun"] YEARS
      (by decide) (by decide)⟩

/-- Claim C2: for every node with children in a built schedule (every
Major node's Sub children and every Sub node's SubSub children, including
a clipped last Major period), the children's intervals are contiguous,
non-overlapping, sorted by start instant, the first child starts at the
parent's start, the last child ends at the parent's (possibly clipped)
end, and the child durations sum to the parent's duration exactly.
(levelOK bundles exactly these conjuncts.)  The horizon is positive, as
required of valid inputs. -/
theorem schedule_children_tile (toInstant : String → String → String → ℚ)
    (tbl : InterpTable) (inp : VimInput) (out : VimOutput) (hty : 0 < tyOf inp)
    (heq : computeVimshottari toInstant tbl inp = .ok out) :
    ∀ md ∈ out.sequence,
      levelOK md.startMs md.endMs (intervalsOfMD md) ∧
      ∀ ad ∈ md.antar, levelOK ad.startMs ad.endMs (intervalsOfAD ad) := by
  intro md hmd
  have hse := (ok_sequence_spec toInstant tbl inp out hty heq).2 md hmd
  obtain ⟨l, s, e, hl, rfl⟩ := ok_sequence_rep toInstant tbl inp out heq md hmd
  have hse2 : s ≤ e := by simpa using hse
  obtain ⟨h1, h2⟩ := mkMD_children tbl l s e hse2
  refine ⟨by simpa using h1, ?_⟩
  intro ad had
  exact (h2 ad had).2.1

/-- Witness for C2 at a concrete valid input (horizon 1 year). -/
theorem schedule_children_tile_witness :
    0 < tyOf inpSmall ∧
    ∀ md ∈ outSmall.sequence,
      levelOK md.startMs md.endMs (intervalsOfMD md) ∧
      ∀ ad ∈ md.antar, levelOK ad.startMs ad.endMs (intervalsOfAD ad) :=
  ⟨by decide,
    schedule_children_tile tz0 tblE inpSmall outSmall (by decide)
      (computeVimshottari_ok_getD tz0 tblE inpSmall (by decide))⟩

/-- Claim C3: for every valid input, every Major period ends no later than
the horizon instant capEnd = birth + horizonYears * YEAR_MS, the last
Major period ends exactly there, and the Major durations sum to exactly
YEAR_MS * horizonYears (the generator always runs to the horizon, so the
horizon value is the minimum of it and the unbounded natural total). -/
theorem schedule_respects_horizon (toInstant : String → String → String → ℚ)
    (tbl : InterpTable) (inp : VimInput) (out : VimOutput) (hty : 0 < tyOf inp)
    (heq : computeVimshottari toInstant tbl inp = .ok out) :
    (∀ md ∈ out.sequence, md.endMs ≤ capOf toInstant inp) ∧
    out.sequence.getLast?.map (·.endMs) = some (capOf toInstant inp) ∧
    (out.sequence.map fun m => m.endMs - m.startMs).sum = YEAR_MS * tyOf inp := by
  obtain ⟨ht, hb⟩ := ok_sequence_spec toInstant tbl inp out hty heq
  have hnn : ∀ p ∈ intervalsOfSeq out.sequence, p.1 ≤ p.2 := by
    intro p hp
    rcases List.mem_map.mp hp with ⟨m, hm, rfl⟩
    exact hb m hm
  have hblt : birthOf toInstant inp < capOf toInstant inp := by
    unfold capOf
    nlinarith [YEAR_MS_pos, hty]
  have hne : out.sequence ≠ [] := by
    intro h
    rw [h, intervalsOfSeq_nil, tilesFromB_nil] at ht
    linarith
  refine ⟨?_, ?_, ?_⟩
  · intro md hmd
    exact (tiles_bounds ht hnn _ (List.mem_map_of_mem _ hmd)).2
  · have hlast := tiles_getLast ht (by simpa [intervalsOfSeq] using hne)
    rw [intervalsOfSeq, List.getLast?_map, Option.map_map] at hlast
    exact hlast
  · have hsum := tiles_sum ht
    rw [intervalsOfSeq, List.map_map] at hsum
    have hcomp : ((fun p : ℚ × ℚ => p.2 - p.1) ∘ fun m : MDNode => (m.startMs, m.endMs)) =
        fun m : MDNode => m.endMs - m.startMs := rfl
    rw [hcomp] at hsum
    rw [hsum]
    unfold capOf
    ring

/-- Witness for C3 at a concrete valid input (horizon 1 year). -/
theorem schedule_respects_horizon_witness :
    0 < tyOf inpSmall ∧
    ((∀ md ∈ outSmall.sequence, md.endMs ≤ capOf tz0 inpSmall) ∧
      outSmall.sequence.getLast?.map (·.endMs) = some (capOf tz0 inpSmall) ∧
      (outSmall.sequence.map fun m => m.endMs - m.startMs).sum = YEAR_MS * tyOf inpSmall) :=
  ⟨by decide,
    schedule_respects_horizon tz0 tblE inpSmall outSmall (by decide)
      (computeVimshottari_ok_getD tz0 tblE inpSmall (by decide))⟩

/-- Claim C5: rotateFromStart of a member lord is the fixed nine-lord
cycle rotated to start at that lord (length 9, starts there, no repeats,
no omissions, wraps exactly once); and in every built tree, each node's
child lord sequence is the cycle rotated to the node's own lord. -/
theorem rotation_spec (l : String) (hl : l ∈ LORDS)
    (toInstant : String → String → String → ℚ) (tbl : InterpTable)
    (inp : VimInput) (out : VimOutput)
    (heq : computeVimshottari toInstant tbl inp = .ok out) :
    ((rotateFromStart l).length = 9 ∧
      (rotateFromStart l).head? = some l ∧
      (rotateFromStart l).Nodup ∧
      (∀ x ∈ LORDS, x ∈ rotateFromStart l) ∧
      rotateFromStart l = LORDS.rotate (LORDS.indexOf l)) ∧
    ∀ md ∈ out.sequence,
      md.antar.map (·.lord) = rotateFromStart md.lord ∧
      ∀ ad ∈ md.antar, ad.pratyantar.map (·.lord) = rotateFromStart ad.lord := by
  constructor
  · fin_cases hl <;> exact ⟨by decide, by decide, by decide, by decide, by decide⟩
  · intro md hmd
    obtain ⟨l2, s, e, hl2, rfl⟩ := ok_sequence_rep toInstant tbl inp out heq md hmd
    refine ⟨?_, ?_⟩
    · simpa using mkMD_antar_lords tbl l2 s e
    · exact mkMD_ad_lords tbl l2 s e

/-- Witness for C5, rotating from the 8th lord (wrap-around case). -/
theorem rotation_spec_witness :
    ("Saturn" ∈ LORDS) ∧
    (((rotateFromStart "Saturn").length = 9 ∧
      (rotateFromStart "Saturn").head? = some "Saturn" ∧
      (rotateFromStart "Saturn").Nodup ∧
      (∀ x ∈ LORDS, x ∈ rotateFromStart "Saturn") ∧
      rotateFromStart "Saturn" = LORDS.rotate (LORDS.indexOf "Saturn")) ∧
    ∀ md ∈ outSmall.sequence,
      md.antar.map (·.lord) = rotateFromStart md.lord ∧
      ∀ ad ∈ md.antar, ad.pratyantar.map (·.lord) = rotateFromStart ad.lord) :=
  ⟨by decide,
    rotation_spec "Saturn" (by decide) tz0 tblE inpSmall outSmall
      (computeVimshottari_ok_getD tz0 tblE inpSmall (by decide))⟩

/-- Claim C6, amended: for every valid input (positive horizon), every
interval at every level satisfies endInstant >= startInstant; strictness
can fail exactly when a natural Major boundary coincides with the
horizon instant, where the final clipped Major period and its children
are zero-length (see the counterexample). -/
theorem intervals_nonneg_amended (toInstant : String → String → String → ℚ)
    (tbl : InterpTable) (inp : VimInput) (out : VimOutput) (hty : 0 < tyOf inp)
    (heq : computeVimshottari toInstant tbl inp = .ok out) :
    ∀ md ∈ out.sequence,
      md.startMs ≤ md.endMs ∧
      ∀ ad ∈ md.antar, ad.startMs ≤ ad.endMs ∧
        ∀ pdn ∈ ad.pratyantar, pdn.startMs ≤ pdn.endMs := by
  intro md hmd
  have hse := (ok_sequence_spec toInstant tbl inp out hty heq).2 md hmd
  obtain ⟨l, s, e, hl, rfl⟩ := ok_sequence_rep toInstant tbl inp out heq md hmd
  have hse2 : s ≤ e := by simpa using hse
  refine ⟨hse, ?_⟩
  intro ad had
  obtain ⟨h1, _, h3⟩ := (mkMD_children tbl l s e hse2).2 ad had
  exact ⟨h1, h3⟩

/-- Witness for the amended C6 at a concrete valid input. -/
theorem intervals_nonneg_amended_witness :
    0 < tyOf inpSmall ∧
    ∀ md ∈ outSmall.sequence,
      md.startMs ≤ md.endMs ∧
      ∀ ad ∈ md.antar, ad.startMs ≤ ad.endMs ∧
        ∀ pdn ∈ ad.pratyantar, pdn.startMs ≤ pdn.endMs :=
  ⟨by decide,
    intervals_nonneg_amended tz0 tblE inpSmall outSmall (by decide)
      (computeVimshottari_ok_getD tz0 tblE inpSmall (by decide))⟩

/-- Claim C8, amended: in every serialized Major node the days field is
the node's actual duration in days, while the years field is the lord's
fixed natural weight YEARS[lord] - not the actual duration in years,
from which it differs on the partial anchor and on a clipped last Major
period (see the counterexample). -/
theorem md_duration_fields_amended (toInstant : String → String → String → ℚ)
    (tbl : InterpTable) (inp : VimInput) (out : VimOutput)
    (heq : computeVimshottari toInstant tbl inp = .ok out) :
    ∀ md ∈ out.sequence,
      md.days = (md.endMs - md.startMs) / MS_PER_DAY ∧
      md.years = YEARS md.lord := by
  intro md hmd
  obtain ⟨l, s, e, _, rfl⟩ := ok_sequence_rep toInstant tbl inp out heq md hmd
  simp

/-- Witness for the amended C8 at a concrete valid input. -/
theorem md_duration_fields_amended_witness :
    computeVimshottari tz0 tblE inpSmall = .ok outSmall ∧
    ∀ md ∈ outSmall.sequence,
      md.days = (md.endMs - md.startMs) / MS_PER_DAY ∧
      md.years = YEARS md.lord :=
  ⟨computeVimshottari_ok_getD tz0 tblE inpSmall (by decide),
    md_duration_fields_amended tz0 tblE inpSmall outSmall
      (computeVimshottari_ok_getD tz0 tblE inpSmall (by decide))⟩

/-- Claim C9: the interpretation lookup is keyed case-insensitively on the
lord pair, returns the explicit absent marker (none) when the table has
no entry, is total (it is a Lean function), and every Sub and SubSub node
carries exactly the lookup for (parent lord, child lord). -/
theorem interpretation_lookup_spec (tbl : InterpTable) (a b a2 b2 : String)
    (h1 : a.toLower = a2.toLower) (h2 : b.toLower = b2.toLower)
    (toInstant : String → String → String → ℚ) (inp : VimInput) (out : VimOutput)
    (heq : computeVimshottari toInstant tbl inp = .ok out) :
    interpFor tbl a b = interpFor tbl a2 b2 ∧
    (tbl a.toLower = none → interpFor tbl a b = none) ∧
    ∀ md ∈ out.sequence, ∀ ad ∈ md.antar,
      ad.interpretation = interpFor tbl md.lord ad.lord ∧
      ∀ pdn ∈ ad.pratyantar, pdn.interpretation = interpFor tbl ad.lord pdn.lord := by
  refine ⟨?_, ?_, ?_⟩
  · unfold interpFor
    rw [h1, h2]
  · intro h
    simp only [interpFor]
    rw [h]
  · intro md hmd
    obtain ⟨l, s, e, _, rfl⟩ := ok_sequence_rep toInstant tbl inp out heq md hmd
    intro ad had
    have h := mkMD_interp tbl l s e ad had
    simpa using h

/-- Witness for C9, with a one-entry table and mixed-case lookups on a
concrete built schedule. -/
theorem interpretation_lookup_spec_witness :
    ("Sun".toLower = "Sun".toLower ∧ "Moon".toLower = "Moon".toLower) ∧
    (interpFor tblSun "Sun" "Moon" = interpFor tblSun "Sun" "Moon" ∧
      (tblSun "Sun".toLower = none → interpFor tblSun "Sun" "Moon" = none) ∧
      ∀ md ∈ outSun.sequence, ∀ ad ∈ md.antar,
        ad.interpretation = interpFor tblSun md.lord ad.lord ∧
        ∀ pdn ∈ ad.pratyantar, pdn.interpretation = interpFor tblSun ad.lord pdn.lord) :=
  ⟨⟨rfl, rfl⟩,
    interpretation_lookup_spec tblSun "Sun" "Moon" "Sun" "Moon" rfl rfl
      tz0 inpSmall outSun (computeVimshottari_ok_getD tz0 tblSun inpSmall (by decide))⟩

/-- Claim C4: the starting lord is LORDS[(27-way nakshatra index) mod 9],
the anchor Major period starts at the reference instant, and - when the
horizon does not clip it - its duration is D * (1 - f) with
D = weight(startLord) * YEAR_MS and f the fractional elapsed portion of
the nakshatra. -/
theorem anchor_period_spec (toInstant : String → String → String → ℚ)
    (tbl : InterpTable) (inp : VimInput) (out : VimOutput) (lon : ℚ)
    (hlon : inp.moonSiderealDeg = some lon)
    (heq : computeVimshottari toInstant tbl inp = .ok out)
    (hnoclip : birthOf toInstant inp + mdRemainingOf lon ≤ capOf toInstant inp) :
    out.meta.startLord = LORDS.getD ((nakFromLon lon).index % 9).toNat "" ∧
    out.sequence.head?.map (·.startMs) = some (birthOf toInstant inp) ∧
    out.sequence.head?.map (fun m => m.endMs - m.startMs) =
      some (YEAR_MS * YEARS (startLordOf lon) * (1 - (nakFromLon lon).fracElapsed)) := by
  have hlon2 : lonOf inp = lon := by simp [lonOf, hlon]
  have hmd : mdEndOf toInstant inp = birthOf toInstant inp + mdRemainingOf lon := by
    unfold mdEndOf
    rw [hlon2]
    exact min_eq_left hnoclip
  have hdur : birthOf toInstant inp + mdRemainingOf lon - birthOf toInstant inp =
      YEAR_MS * YEARS (startLordOf lon) * (1 - (nakFromLon lon).fracElapsed) := by
    unfold mdRemainingOf
    ring
  rw [computeVimshottari_eq] at heq
  split at heq
  · exact absurd heq (by simp)
  · split at heq
    · cases heq
      refine ⟨by rw [hlon2]; rfl, by simp, ?_⟩
      simp only [List.head?_cons, Option.map_some', mkMD_endMs, mkMD_startMs]
      rw [hmd]
      exact congrArg _ hdur
    · cases heq
      refine ⟨by rw [hlon2]; rfl, by simp, ?_⟩
      simp only [List.head?_cons, Option.map_some', mkMD_endMs, mkMD_startMs]
      rw [hmd]
      exact congrArg _ hdur

/-! Concrete evaluations for the example inputs. -/

lemma normalize360_zero : normalize360 0 = 0 := by
  unfold normalize360 jsMod ratTrunc
  norm_num

lemma nak0_index : (nakFromLon 0).index = 0 := by
  have h : (nakFromLon 0).index = ⌊normalize360 0 / NAK_LEN_DEG⌋ := rfl
  rw [h, normalize360_zero]
  norm_num

lemma nak0_frac : (nakFromLon 0).fracElapsed = 0 := by
  have h : (nakFromLon 0).fracElapsed =
      (normalize360 0 - (⌊normalize360 0 / NAK_LEN_DEG⌋ : ℚ) * NAK_LEN_DEG) / NAK_LEN_DEG := rfl
  rw [h, normalize360_zero]
  norm_num [NAK_LEN_DEG]

lemma startLord0 : startLordOf 0 = "Ketu" := by
  unfold startLordOf
  rw [nak0_index]
  decide

lemma mdRemaining0 : mdRemainingOf 0 = 7 * YEAR_MS := by
  unfold mdRemainingOf
  rw [startLord0, nak0_frac]
  rw [show YEARS "Ketu" = 7 from rfl]
  ring

lemma normalize360_400 : normalize360 400 = 40 := by
  unfold normalize360 jsMod ratTrunc
  norm_num

lemma nak400_index : (nakFromLon 400).index = 3 := by
  have h : (nakFromLon 400).index = ⌊normalize360 400 / NAK_LEN_DEG⌋ := rfl
  rw [h, normalize360_400]
  norm_num [NAK_LEN_DEG]

lemma startLord400 : startLordOf 400 = "Moon" := by
  unfold startLordOf
  rw [nak400_index]
  decide

lemma normalize360_half : normalize360 (20 / 3) = 20 / 3 := by
  unfold normalize360 jsMod ratTrunc
  norm_num

lemma nakHalf_index : (nakFromLon (20 / 3)).index = 0 := by
  have h : (nakFromLon (20 / 3)).index = ⌊normalize360 (20 / 3) / NAK_LEN_DEG⌋ := rfl
  rw [h, normalize360_half]
  norm_num [NAK_LEN_DEG]

lemma nakHalf_frac : (nakFromLon (20 / 3)).fracElapsed = 1 / 2 := by
  have h : (nakFromLon (20 / 3)).fracElapsed =
      (normalize360 (20 / 3) -
        (⌊normalize360 (20 / 3) / NAK_LEN_DEG⌋ : ℚ) * NAK_LEN_DEG) / NAK_LEN_DEG := rfl
  rw [h, normalize360_half]
  norm_num [NAK_LEN_DEG]

lemma startLordHalf : startLordOf (20 / 3) = "Ketu" := by
  unfold startLordOf
  rw [nakHalf_index]
  decide

lemma mdRemainingHalf : mdRemainingOf (20 / 3) = 7 / 2 * YEAR_MS := by
  unfold mdRemainingOf
  rw [startLordHalf, nakHalf_frac]
  rw [show YEARS "Ketu" = 7 from rfl]
  ring

/-- Witness for C4 at longitude 0 and horizon 7 years (the anchor ends
exactly at the horizon, so it is not clipped). -/
theorem anchor_period_spec_witness :
    (inpC4.moonSiderealDeg = some 0 ∧
      birthOf tz0 inpC4 + mdRemainingOf 0 ≤ capOf tz0 inpC4) ∧
    (outC4.meta.startLord = LORDS.getD ((nakFromLon 0).index % 9).toNat "" ∧
      outC4.sequence.head?.map (·.startMs) = some (birthOf tz0 inpC4) ∧
      outC4.sequence.head?.map (fun m => m.endMs - m.startMs) =
        some (YEAR_MS * YEARS (startLordOf 0) * (1 - (nakFromLon 0).fracElapsed))) := by
  have hnoclip : birthOf tz0 inpC4 + mdRemainingOf 0 ≤ capOf tz0 inpC4 := by
    rw [mdRemaining0]
    unfold capOf
    rw [show birthOf tz0 inpC4 = 0 from rfl, show tyOf inpC4 = 7 from rfl]
    linarith [YEAR_MS_pos]
  exact ⟨⟨rfl, hnoclip⟩,
    anchor_period_spec tz0 tblE inpC4 outC4 0 rfl
      (computeVimshottari_ok_getD tz0 tblE inpC4 (by decide)) hnoclip⟩

/-- Claim C7, amended: computeVimshottari throws the invalid-payload error
exactly when birthDate, birthTime or timeZone is missing or empty, or
moonSiderealDeg is not a number.  Out-of-range longitudes and
non-positive totalYears are not rejected: for every payload passing the
falsy checks the function returns a schedule. -/
theorem validation_amended (toInstant : String → String → String → ℚ)
    (tbl : InterpTable) (inp : VimInput) :
    (computeVimshottari toInstant tbl inp =
        .error "Invalid payload for computeVimshottari" ↔
      (falsyStr inp.birthDate = true ∨ falsyStr inp.birthTime = true ∨
        falsyStr inp.timeZone = true ∨ inp.moonSiderealDeg = none)) ∧
    ((falsyStr inp.birthDate || falsyStr inp.birthTime || falsyStr inp.timeZone ||
        inp.moonSiderealDeg.isNone) = false →
      ∃ out, computeVimshottari toInstant tbl inp = .ok out) := by
  rw [computeVimshottari_eq]
  cases hcond : (falsyStr inp.birthDate || falsyStr inp.birthTime || falsyStr inp.timeZone ||
      inp.moonSiderealDeg.isNone) with
  | false =>
    have hsplit := hcond
    simp only [Bool.or_eq_false_iff] at hsplit
    obtain ⟨⟨⟨hbd, hbt⟩, htz⟩, hmoon⟩ := hsplit
    simp only [Bool.false_eq_true, if_false]
    constructor
    · constructor
      · intro h
        exfalso
        split at h <;> exact Except.noConfusion h
      · intro h
        exfalso
        rcases h with h | h | h | h
        · rw [hbd] at h; exact Bool.noConfusion h
        · rw [hbt] at h; exact Bool.noConfusion h
        · rw [htz] at h; exact Bool.noConfusion h
        · rw [h] at hmoon; simp at hmoon
    · intro _
      split
      · exact ⟨_, rfl⟩
      · exact ⟨_, rfl⟩
  | true =>
    constructor
    · constructor
      · intro _
        have hor := hcond
        simp only [Bool.or_eq_true] at hor
        rcases hor with ((h | h) | h) | h
        · exact Or.inl h
        · exact Or.inr (Or.inl h)
        · exact Or.inr (Or.inr (Or.inl h))
        · exact Or.inr (Or.inr (Or.inr (Option.isNone_iff_eq_none.mp h)))
      · intro _
        rfl
    · intro h
      simp at h

/-- Witness for the amended C7 at a concrete payload. -/
theorem validation_amended_witness :
    (computeVimshottari tz0 tblE inpSmall =
        .error "Invalid payload for computeVimshottari" ↔
      (falsyStr inpSmall.birthDate = true ∨ falsyStr inpSmall.birthTime = true ∨
        falsyStr inpSmall.timeZone = true ∨ inpSmall.moonSiderealDeg = none)) ∧
    ((falsyStr inpSmall.birthDate || falsyStr inpSmall.birthTime ||
        falsyStr inpSmall.timeZone || inpSmall.moonSiderealDeg.isNone) = false →
      ∃ out, computeVimshottari tz0 tblE inpSmall = .ok out) :=
  validation_amended tz0 tblE inpSmall

/-- Counterexample to C7 as stated: the payload inpTy0 has totalYears 0
and longitude 400, both invalid per the claim, yet computeVimshottari
does not reject it - it returns a one-element schedule. -/
theorem validation_cex :
    tyOf inpTy0 = 0 ∧
    (computeVimshottari tz0 tblE inpTy0).toOption ≠ none ∧
    ty0SeqLen = 1 := by
  have hcap0 : capOf tz0 inpTy0 = 0 := by
    unfold capOf
    rw [show birthOf tz0 inpTy0 = 0 from rfl, show tyOf inpTy0 = 0 from rfl]
    ring
  have hble : capOf tz0 inpTy0 ≤ mdEndOf tz0 inpTy0 := by
    unfold mdEndOf
    rw [show lonOf inpTy0 = 400 from rfl, show birthOf tz0 inpTy0 = 0 from rfl, hcap0]
    exact le_min (by linarith [mdRemaining_nonneg 400]) le_rfl
  have hseq : computeVimshottari tz0 tblE inpTy0 =
      .ok ⟨⟨birthOf tz0 inpTy0, startLordOf (lonOf inpTy0)⟩,
        [mkMD tblE (startLordOf (lonOf inpTy0)) (birthOf tz0 inpTy0)
          (mdEndOf tz0 inpTy0)]⟩ := by
    rw [computeVimshottari_eq,
      show (falsyStr inpTy0.birthDate || falsyStr inpTy0.birthTime ||
        falsyStr inpTy0.timeZone || inpTy0.moonSiderealDeg.isNone) = false from by decide]
    simp only [Bool.false_eq_true, if_false]
    rw [if_pos hble]
  refine ⟨rfl, ?_, ?_⟩
  · rw [hseq]
    simp [Except.toOption]
  · unfold ty0SeqLen
    rw [hseq]
    simp [Except.toOption]

/-! Evaluation of the inp27 schedule down to its three Major nodes. -/

lemma inp27_fuel : mdFuel (27 * YEAR_MS - 7 * YEAR_MS) = 22 := by
  unfold mdFuel
  norm_num [YEAR_MS]
  decide

lemma inp27_seq : computeVimshottari tz0 tblE inp27 =
    .ok ⟨⟨0, "Ketu"⟩, mkMD tblE "Ketu" 0 (7 * YEAR_MS) ::
      mdOuter tblE LORDS 22 (7 * YEAR_MS) (27 * YEAR_MS)⟩ := by
  have hb : birthOf tz0 inp27 = 0 := rfl
  have hcap : capOf tz0 inp27 = 27 * YEAR_MS := by
    unfold capOf
    rw [hb, show tyOf inp27 = 27 from rfl]
    ring
  have hmde : mdEndOf tz0 inp27 = 7 * YEAR_MS := by
    unfold mdEndOf
    rw [show lonOf inp27 = 0 from rfl, hb, hcap, mdRemaining0,
      show (0 : ℚ) + 7 * YEAR_MS = 7 * YEAR_MS from by ring]
    exact min_eq_left (by nlinarith [YEAR_MS_pos])
  have hnotle : ¬(capOf tz0 inp27 ≤ mdEndOf tz0 inp27) := by
    rw [hcap, hmde]
    nlinarith [YEAR_MS_pos]
  rw [computeVimshottari_eq,
    show (falsyStr inp27.birthDate || falsyStr inp27.birthTime ||
      falsyStr inp27.timeZone || inp27.moonSiderealDeg.isNone) = false from by decide]
  simp only [Bool.false_eq_true, if_false]
  rw [if_neg hnotle,
    show lonOf inp27 = 0 from rfl, startLord0,
    show rotateFromStart "Ketu" = LORDS from by decide,
    hb, hcap, hmde, inp27_fuel]

lemma inp27_outer : mdOuter tblE LORDS 22 (7 * YEAR_MS) (27 * YEAR_MS) =
    [mkMD tblE "Venus" (7 * YEAR_MS) (27 * YEAR_MS),
     mkMD tblE "Sun" (27 * YEAR_MS) (27 * YEAR_MS)] := by
  have hpass2 : mdPass tblE ["Sun", "Moon", "Mars", "Rahu", "Jupiter", "Saturn", "Mercury"]
      (27 * YEAR_MS) (27 * YEAR_MS) =
      ([mkMD tblE "Sun" (27 * YEAR_MS) (27 * YEAR_MS)], 27 * YEAR_MS, true) := by
    rw [mdPass_cons_clip tblE "Sun" _ _ _
      (by rw [show YEARS "Sun" = 6 from rfl]; nlinarith [YEAR_MS_pos])]
  have harith : 7 * YEAR_MS + YEAR_MS * YEARS "Venus" = 27 * YEAR_MS := by
    rw [show YEARS "Venus" = 20 from rfl]
    ring
  have hpass1 : mdPass tblE
      ["Venus", "Sun", "Moon", "Mars", "Rahu", "Jupiter", "Saturn", "Mercury"]
      (7 * YEAR_MS) (27 * YEAR_MS) =
      ([mkMD tblE "Venus" (7 * YEAR_MS) (27 * YEAR_MS),
        mkMD tblE "Sun" (27 * YEAR_MS) (27 * YEAR_MS)], 27 * YEAR_MS, true) := by
    rw [mdPass_cons_full tblE "Venus" _ _ _ (by rw [harith]; exact lt_irrefl _),
      harith, hpass2]
  rw [show (22 : ℕ) = 21 + 1 from rfl, mdOuter_succ,
    show LORDS.drop 1 =
      ["Venus", "Sun", "Moon", "Mars", "Rahu", "Jupiter", "Saturn", "Mercury"] from rfl,
    hpass1]
  simp

lemma md27_eq : md27 = mkMD tblE "Sun" (27 * YEAR_MS) (27 * YEAR_MS) := by
  unfold md27
  rw [inp27_seq, inp27_outer]
  simp [Except.toOption]

/-- Counterexample to C6 as stated: with longitude 0 and horizon 27 years
the Venus mahadasha ends exactly at the horizon, so the next (Sun) Major
period is clipped to a zero-length interval - endInstant is not strictly
greater than startInstant. -/
theorem zero_length_interval_cex :
    0 < tyOf inp27 ∧
    ((computeVimshottari tz0 tblE inp27).toOption.getD outDefault).sequence.length = 3 ∧
    md27.lord = "Sun" ∧
    md27.endMs = md27.startMs := by
  refine ⟨by decide, ?_, ?_, ?_⟩
  · rw [inp27_seq, inp27_outer]
    simp [Except.toOption]
  · rw [md27_eq]
    rfl
  · rw [md27_eq]
    simp

/-! Evaluation of the inpHalf schedule (clipped anchor). -/

lemma inpHalf_seq : computeVimshottari tz0 tblE inpHalf =
    .ok ⟨⟨0, "Ketu"⟩, [mkMD tblE "Ketu" 0 (2 * YEAR_MS)]⟩ := by
  have hb : birthOf tz0 inpHalf = 0 := rfl
  have hcap : capOf tz0 inpHalf = 2 * YEAR_MS := by
    unfold capOf
    rw [hb, show tyOf inpHalf = 2 from rfl]
    ring
  have hmde : mdEndOf tz0 inpHalf = 2 * YEAR_MS := by
    unfold mdEndOf
    rw [show lonOf inpHalf = 20 / 3 from rfl, hb, hcap, mdRemainingHalf,
      show (0 : ℚ) + 7 / 2 * YEAR_MS = 7 / 2 * YEAR_MS from by ring]
    exact min_eq_right (by nlinarith [YEAR_MS_pos])
  have hle : capOf tz0 inpHalf ≤ mdEndOf tz0 inpHalf := by
    rw [hcap, hmde]
  rw [computeVimshottari_eq,
    show (falsyStr inpHalf.birthDate || falsyStr inpHalf.birthTime ||
      falsyStr inpHalf.timeZone || inpHalf.moonSiderealDeg.isNone) = false from by decide]
  simp only [Bool.false_eq_true, if_false]
  rw [if_pos hle, show lonOf inpHalf = 20 / 3 from rfl, startLordHalf, hb, hmde]

lemma mdHalf_eq : mdHalf = mkMD tblE "Ketu" 0 (2 * YEAR_MS) := by
  unfold mdHalf
  rw [inpHalf_seq]
  simp [Except.toOption]

/-- Counterexample to C8 as stated: for longitude 20/3 (the anchor lord
Ketu, half elapsed) and horizon 2 years, the single clipped Major node
has an actual duration of exactly 2 years, but its years field is 7 (the
lord's full natural weight), so the exposed duration-in-years field does
not equal the actual duration in years. -/
theorem years_field_cex :
    mdHalf.years = 7 ∧
    mdHalf.endMs - mdHalf.startMs = 2 * YEAR_MS ∧
    mdHalf.years ≠ (mdHalf.endMs - mdHalf.startMs) / YEAR_MS := by
  rw [mdHalf_eq]
  refine ⟨rfl, by simp, ?_⟩
  rw [mkMD_years, mkMD_endMs, mkMD_startMs, show YEARS "Ketu" = 7 from rfl]
  norm_num [YEAR_MS]

end Vimshottari
